import Mathlib

/-!
# WENOEXT: the WENO coefficient weighting and the Taylor-polynomial flattening

A shallow embedding of

* `WENOCoeff::calcWeight` (the scalar overload, and the non-scalar overloads that forward
  to `calcWeightComp`) and the `nDvt_` computation of the `WENOCoeff` constructor, from
  `WENOBase/WENOCoeff.H`;
* `WENOPolynomial::addCoeffs`, from `WENOBase/WENOPolynomial.H`.

Conventions of the embedding.

* `scalar`: the definitions use the operations `+`, `*`, `/` and the literals of the
  source and nothing else of the type `K` of scalars, so they run on any arithmetic.
  They are read on `Dbl`, IEEE 754 double precision, which is what the program computes
  with, and on an ordered field (`ℚ`, `ℝ`) for what holds in exact arithmetic.
* `pow` is the C library function; it is not code of the repository and is taken as a
  parameter `pow : K → K → K`. In exact arithmetic it is the real power `Real.rpow`
  (`powQ` on `ℚ` for integral exponents); on doubles it is `Dbl.pow`.
* `label` is `ℤ`; loop counters that start at `0` and only grow are `ℕ`.
* `forAll(list, i)` is `forAll list.size body`: the body run for `i = 0, .., size - 1`.
* A buffer (`Field<scalar>`, `List<scalar>`) is a `List K`. Every read in the embedded code
  is inside the list it indexes. A write `buf[i] = v` is `buf.set i v`; the source gives no
  meaning to a write past the end of `coeffsWeightedI`, and the model drops it.
* Read-only tables reached through pointers (`(*B_)[cellI][P][Q]`, `x_circ_[n][m][l]`) are
  total functions of their indices; the raw output pointer `scalar* coeffs` is a function
  `ℕ → K` updated at the written index.
-/

namespace WENO

/-! ## Loops -/

/-- The loop `forAll(list, i) { body }` of OpenFOAM, that is
`for (i = 0; i < n; i++) body`, threading the mutable state `σ`. -/
def forAll {σ : Type} (n : ℕ) (body : ℕ → σ → σ) (init : σ) : σ :=
  (List.range n).foldl (fun s i => body i s) init

/-- The loop `for (label i = 0; i <= d; i++) body` with a `label` bound `d`:
`d + 1` iterations when `d ≥ 0`, none when `d < 0`. -/
def forUpTo {σ : Type} (d : ℤ) (body : ℕ → σ → σ) (init : σ) : σ :=
  forAll (d + 1).toNat body init

/-! ## `WENOCoeff` -/

/-- The private data of `WENOCoeff` that the scalar `calcWeight` reads: the weighting
factors `p_` and `dm_` and the oscillation matrices `B_`, one per cell, read as
`(*B_)[cellI][coeffP][coeffQ]`. -/
structure WENOCoeff (K : Type) where
  /-- WENO weighting factor `p_` (the exponent). -/
  p_ : K
  /-- WENO weighting factor `dm_` (the bias of the central stencil). -/
  dm_ : K
  /-- Oscillation matrices, `B_ cellI coeffP coeffQ`. -/
  B_ : ℕ → ℕ → ℕ → K

section calcWeight

variable {K : Type} [Zero K] [One K] [Add K] [Mul K] [Div K] [OfScientific K]

/-- The constructor's `p_ = WENODict.lookupOrDefault<scalar>("p", 4.0)`, as a function of
the dictionary entry, if there is one. -/
def pOrDefault (entry : Option K) : K := entry.getD 4.0

/-- The constructor's `dm_ = WENODict.lookupOrDefault<scalar>("dm", 1000.0)`, as a function
of the dictionary entry, if there is one. -/
def dmOrDefault (entry : Option K) : K := entry.getD 1000.0

/-- The inner loop over `coeffQ`: `sumB += (*B_)[cellI][coeffP][coeffQ]*coeffsIsI[coeffQ]`,
from `sumB = 0.0`. -/
def sumB (B : ℕ → ℕ → K) (coeffsIsI : List K) (coeffP : ℕ) : K :=
  forAll coeffsIsI.length (fun coeffQ sumB => sumB + B coeffP coeffQ * coeffsIsI.getD coeffQ 0) 0

/-- The loop over `coeffP`: `smoothInd += coeffsIsI[coeffP]*sumB`, from `smoothInd = 0.0`. -/
def smoothInd (B : ℕ → ℕ → K) (coeffsIsI : List K) : K :=
  forAll coeffsIsI.length
    (fun coeffP smoothInd => smoothInd + coeffsIsI.getD coeffP 0 * sumB B coeffsIsI coeffP) 0

/-- The branch on `stencilI == 0` that sets `gamma` from the smoothness indicator:
`dm_/(pow(10e-6 + smoothInd,p_))` for the central stencil and
`1.0/(pow(10e-6 + smoothInd,p_))` otherwise. -/
def gammaOf (pow : K → K → K) (self : WENOCoeff K) (stencilI : ℕ) (smoothInd : K) : K :=
  if stencilI = 0 then self.dm_ / pow (10e-6 + smoothInd) self.p_
  else 1 / pow (10e-6 + smoothInd) self.p_

/-- The value of `gamma` in the iteration `stencilI` of the loop over the stencils of
`cellI`. -/
def stencilGamma (pow : K → K → K) (self : WENOCoeff K) (cellI : ℕ)
    (coeffsI : List (List K)) (stencilI : ℕ) : K :=
  gammaOf pow self stencilI (smoothInd (self.B_ cellI) (coeffsI.getD stencilI []))

/-- The loop `forAll(coeffsIsI, coeffI) coeffsWeightedI[coeffI] += coeffsIsI[coeffI]*gamma`. -/
def accumulate (coeffsWeightedI : List K) (coeffsIsI : List K) (gamma : K) : List K :=
  forAll coeffsIsI.length
    (fun coeffI cw => cw.set coeffI (cw.getD coeffI 0 + coeffsIsI.getD coeffI 0 * gamma))
    coeffsWeightedI

/-- One iteration of `forAll(coeffsI, stencilI)` on the state `(gammaSum, coeffsWeightedI)`. -/
def stencilStep (pow : K → K → K) (self : WENOCoeff K) (cellI : ℕ) (coeffsI : List (List K))
    (stencilI : ℕ) (st : K × List K) : K × List K :=
  let coeffsIsI := coeffsI.getD stencilI []
  let gamma := stencilGamma pow self cellI coeffsI stencilI
  (st.1 + gamma, accumulate st.2 coeffsIsI gamma)

/-- The state `(gammaSum, coeffsWeightedI)` after the loop over all stencils, started
from `gammaSum = 0.0` and the buffer as passed in. -/
def stencilLoop (pow : K → K → K) (self : WENOCoeff K) (coeffsWeightedI : List K) (cellI : ℕ)
    (coeffsI : List (List K)) : K × List K :=
  forAll coeffsI.length (stencilStep pow self cellI coeffsI) (0, coeffsWeightedI)

/-- The value of `gammaSum` after the loop over all stencils. It does not depend on the
buffer, see `gammaSum_eq`. -/
def gammaSum (pow : K → K → K) (self : WENOCoeff K) (cellI : ℕ) (coeffsI : List (List K)) : K :=
  (stencilLoop pow self [] cellI coeffsI).1

/-- The final loop `forAll(coeffsWeightedI, coeffI) coeffsWeightedI[coeffI] /= gammaSum`. -/
def normalise (coeffsWeightedI : List K) (gammaSum : K) : List K :=
  forAll coeffsWeightedI.length
    (fun coeffI cw => cw.set coeffI (cw.getD coeffI 0 / gammaSum)) coeffsWeightedI

/-- `WENOCoeff::calcWeight` for scalar fields. The argument `vf` is not read by the
function and is left out; the result is the content of `coeffsWeightedI` on exit. -/
def calcWeight (pow : K → K → K) (self : WENOCoeff K) (coeffsWeightedI : List K) (cellI : ℕ)
    (coeffsI : List (List K)) : List K :=
  let st := stencilLoop pow self coeffsWeightedI cellI coeffsI
  normalise st.2 st.1

/-- The weight that the blend gives to stencil `stencilI`: its `gamma` over the final
`gammaSum`. The function never stores it; `calcWeight` multiplies by `gamma` and divides
by `gammaSum`. -/
def weight (pow : K → K → K) (self : WENOCoeff K) (cellI : ℕ) (coeffsI : List (List K))
    (stencilI : ℕ) : K :=
  stencilGamma pow self cellI coeffsI stencilI / gammaSum pow self cellI coeffsI

/-- The comparison run of the exclusion property: one iteration of the stencil loop of
`calcWeight` over the full list, with the `gamma` of the stencil `excluded` forced to
exactly zero, in `gammaSum` and in the accumulation alike. -/
def stencilStepForced (pow : K → K → K) (self : WENOCoeff K) (cellI : ℕ)
    (coeffsI : List (List K)) (excluded : ℕ) (stencilI : ℕ) (st : K × List K) : K × List K :=
  let coeffsIsI := coeffsI.getD stencilI []
  let gamma := if stencilI = excluded then 0 else stencilGamma pow self cellI coeffsI stencilI
  (st.1 + gamma, accumulate st.2 coeffsIsI gamma)

/-- The comparison run of the exclusion property: `calcWeight` on the full list with the
`gamma` of the stencil `excluded` forced to exactly zero. -/
def calcWeightForced (pow : K → K → K) (self : WENOCoeff K) (excluded : ℕ)
    (coeffsWeightedI : List K) (cellI : ℕ) (coeffsI : List (List K)) : List K :=
  let st := forAll coeffsI.length (stencilStepForced pow self cellI coeffsI excluded)
    (0, coeffsWeightedI)
  normalise st.2 st.1

/-! ### Non-scalar fields

A value of a non-scalar `Type` is read through its components, `v compI` for
`compI = 0, .., nComponents - 1`. -/

/-- The non-scalar field types for which `WENOCoeff.H` has a `calcWeight` overload. -/
inductive FieldType where
  | vector
  | tensor
  | symmTensor
  | sphericalTensor
  deriving DecidableEq, Repr

/-- The number of components of a value of each type, as OpenFOAM defines the types. -/
def FieldType.nComponents : FieldType → ℕ
  | .vector => 3
  | .tensor => 9
  | .symmTensor => 6
  | .sphericalTensor => 1

/-- Component `compI` of every entry of a list of values. -/
def component (compI : ℕ) (field : List (ℕ → K)) : List K := field.map fun v => v compI

/-- The list of values with component `compI` of entry `i` replaced by `vals[i]`. -/
def setComponent (field : List (ℕ → K)) (compI : ℕ) (vals : List K) : List (ℕ → K) :=
  List.zipWith (fun v a => Function.update v compI a) field vals

/-- Modelled from the spec: `WENOCoeff::calcWeightComp`, which `WENOCoeff.H` declares and
whose body is not in the sources. The specification has the non-scalar types decomposed
into independent scalar combinations, one per tensor component, each reusing the scalar
weighting logic: for each component in turn, the scalar `calcWeight` is run on that
component of the buffer and of the stencils' coefficients, and its result is stored in
that component of the buffer. -/
def calcWeightComp (pow : K → K → K) (self : WENOCoeff K) (nComponents : ℕ)
    (coeffsWeightedI : List (ℕ → K)) (cellI : ℕ) (coeffsI : List (List (ℕ → K))) :
    List (ℕ → K) :=
  forAll nComponents (fun compI cw =>
    setComponent cw compI
      (calcWeight pow self (component compI cw) cellI (coeffsI.map (component compI))))
    coeffsWeightedI

/-- The `calcWeight` overloads for `vector`, `tensor`, `symmTensor` and `sphericalTensor`
fields: each forwards its arguments unchanged to `calcWeightComp` (the argument `vf` is
left out as in the scalar case). -/
def calcWeightNonScalar (fieldType : FieldType) (pow : K → K → K) (self : WENOCoeff K)
    (coeffsWeightedI : List (ℕ → K)) (cellI : ℕ) (coeffsI : List (List (ℕ → K))) :
    List (ℕ → K) :=
  calcWeightComp pow self fieldType.nComponents coeffsWeightedI cellI coeffsI

end calcWeight

/-- The C library `pow` on `ℚ` for an integral exponent `p`, where it is the exact
integer power `x ^ p` (the default `p = 4.0` is integral). -/
def powQ (x p : ℚ) : ℚ := x ^ ⌊p⌋


/-! ## The constructor: `nDvt_` -/

/-- Conversion of a `scalar` to a `label` (the implicit conversion in `nDvt_ = ...`):
truncation toward zero. -/
def toLabel (q : ℚ) : ℤ := if 0 ≤ q then ⌊q⌋ else ⌈q⌉

/-- The value the constructor `WENOCoeff(mesh, polOrder)` stores in `nDvt_`, as a function
of `mesh.nGeometricD()` and `polOrder`. The member `polOrder_` is a `scalar`, so the
arithmetic is done on scalars and the result converted to `label`. -/
def nDvt (nGeometricD : ℤ) (polOrder : ℤ) : ℤ :=
  let polOrder_ : ℚ := polOrder
  if nGeometricD = 3 then
    toLabel ((polOrder_ + 1.0) * (polOrder_ + 2.0) * (polOrder_ + 3.0) / 6.0 - 1.0)
  else
    toLabel ((polOrder_ + 1.0) * (polOrder_ + 2.0) / 2.0 - 1.0)

/-! ## `WENOPolynomial::addCoeffs` -/

section addCoeffs

variable {K : Type}

/-- The statement `coeffs[curIdx++] = v` on the state `(coeffs, curIdx)`. -/
def emit (st : (ℕ → K) × ℕ) (v : K) : (ℕ → K) × ℕ :=
  (Function.update st.1 st.2 v, st.2 + 1)

/-- `WENOPolynomial::addCoeffs`. The list `dim` is read at `dim[0]`, `dim[1]`, `dim[2]`
and is given as a triple. The result is the content of `coeffs` on exit together with
the final value of `curIdx`, the number of entries written. -/
def addCoeffs (coeffs : ℕ → K) (polOrder : ℤ) (dim : ℤ × ℤ × ℤ) (x_circ_ : ℕ → ℕ → ℕ → K) :
    (ℕ → K) × ℕ :=
  forUpTo dim.1 (fun n st =>
    forUpTo dim.2.1 (fun m st =>
      forUpTo dim.2.2 (fun l st =>
        if ((n : ℤ) + m + l) ≤ polOrder ∧ ((n : ℤ) + m + l) > 0 then
          emit st (x_circ_ n m l)
        else st) st) st) (coeffs, 0)

/-- The statement `coeffs[curIdx++] = v` run for each value of a list in turn. -/
def emitList (st : (ℕ → K) × ℕ) (vs : List K) : (ℕ → K) × ℕ := vs.foldl emit st

/-- The entries `coeffs[0], .., coeffs[curIdx - 1]` of a state, as a vector. -/
def written (st : (ℕ → K) × ℕ) : List K := (List.range st.2).map st.1

/-- The exponent triples `(n, m, l)` at which the loop nest of `addCoeffs` writes, in the
order of the iterations. -/
def monomials (polOrder : ℤ) (dim : ℤ × ℤ × ℤ) : List (ℕ × ℕ × ℕ) :=
  (List.range (dim.1 + 1).toNat).flatMap fun n =>
    (List.range (dim.2.1 + 1).toNat).flatMap fun m =>
      (List.range (dim.2.2 + 1).toNat).flatMap fun l =>
        if ((n : ℤ) + m + l) ≤ polOrder ∧ ((n : ℤ) + m + l) > 0 then [(n, m, l)] else []

/-- The admissible exponent triples of the specification: `0 ≤ n ≤ dx`, `0 ≤ m ≤ dy`,
`0 ≤ l ≤ dz` and `0 < n + m + l ≤ p`. -/
def admissible (p : ℤ) (dim : ℤ × ℤ × ℤ) (t : ℕ × ℕ × ℕ) : Prop :=
  (t.1 : ℤ) ≤ dim.1 ∧ (t.2.1 : ℤ) ≤ dim.2.1 ∧ (t.2.2 : ℤ) ≤ dim.2.2 ∧
    0 < (t.1 : ℤ) + t.2.1 + t.2.2 ∧ (t.1 : ℤ) + t.2.1 + t.2.2 ≤ p

instance (p : ℤ) (dim : ℤ × ℤ × ℤ) (t : ℕ × ℕ × ℕ) : Decidable (admissible p dim t) := by
  unfold admissible; infer_instance

/-- Strict lexicographic order on exponent triples, `n` most significant, `l` least. -/
def lexLt (t u : ℕ × ℕ × ℕ) : Prop :=
  t.1 < u.1 ∨ (t.1 = u.1 ∧ (t.2.1 < u.2.1 ∨ (t.2.1 = u.2.1 ∧ t.2.2 < u.2.2)))

instance (t u : ℕ × ℕ × ℕ) : Decidable (lexLt t u) := by
  unfold lexLt; infer_instance

/-- The position of the first occurrence of the triple `t` in a list of triples (the
length of the list when `t` does not occur). -/
def position (t : ℕ × ℕ × ℕ) : List (ℕ × ℕ × ℕ) → ℕ
  | [] => 0
  | u :: us => if u = t then 0 else position t us + 1

/-- Modelled from the spec: the inverse operation `unflatten` of PolynomialBasis, which
has no counterpart in the sources. It places entry `i` of the vector at the `i`-th
multi-index of the enumeration (and `0` at every other position of the array). -/
def unflatten [Zero K] (v : List K) (polOrder : ℤ) (dim : ℤ × ℤ × ℤ) : ℕ → ℕ → ℕ → K :=
  fun n m l =>
    if (n, m, l) ∈ monomials polOrder dim then
      v.getD (position (n, m, l) (monomials polOrder dim)) 0
    else 0

end addCoeffs

/-! ## Double precision

`scalar` is `double` in the program. `Dbl` is IEEE 754 binary64 with the correctly rounded
operations `+`, `-`, `*`, `/` in the default rounding mode (to nearest, ties to even), with
signed zeros, gradual underflow, infinities and NaN; NaN payloads and exception flags are
not recorded. A decimal literal is the nearest double. The definitions above, which use
nothing but these operations, run on it as they are. -/

/-- The integer nearest to `N / D`, ties to the even one. -/
def roundNat (N D : ℕ) : ℕ :=
  let f := N / D
  let r := N % D
  if 2 * r < D then f else if D < 2 * r then f + 1 else if f % 2 = 0 then f else f + 1

/-- The position of the leading bit of `n`, that is `⌊log₂ n⌋` (and `0` for `n = 0`),
found by bisection; meant for `n < 2 ^ 131072`. -/
def leadingBit (n : ℕ) : ℕ :=
  [65536, 32768, 16384, 8192, 4096, 2048, 1024, 512, 256, 128, 64, 32, 16, 8, 4, 2, 1].foldl
    (fun acc b => if 2 ^ (acc + b) ≤ n then acc + b else acc) 0

/-- A `double`: the finite value `± m * 2 ^ e` (`negative` is the sign bit, so that zero
has a sign), an infinity, or a NaN. A finite value is kept with `m` odd, or with `m = 0`
and `e = 0`. -/
inductive Dbl where
  | fin (negative : Bool) (m : ℕ) (e : ℤ)
  | inf (negative : Bool)
  | nan
  deriving DecidableEq, Repr

namespace Dbl

/-- The finite value `± m * 2 ^ e` in its kept form. -/
def canon (negative : Bool) (m : ℕ) (e : ℤ) : Dbl :=
  if m = 0 then fin negative 0 0
  else
    let g := Nat.gcd m (2 ^ 64)
    fin negative (m / g) (e + (leadingBit g : ℤ))

/-- The `double` nearest to the number `± N / D * 2 ^ E`: round to nearest, ties to even,
53 significant bits, gradual underflow below `2 ^ (-1022)`, overflow to an infinity. -/
def round (negative : Bool) (N D : ℕ) (E : ℤ) : Dbl :=
  if N = 0 then fin negative 0 0
  else
    let k : ℤ := (leadingBit N : ℤ) - (leadingBit D : ℤ)
    let e0 : ℤ := (if D * 2 ^ k.toNat ≤ N * 2 ^ (-k).toNat then k else k - 1) + E
    let u : ℤ := max (e0 - 52) (-1074)
    let sh : ℤ := E - u
    let m := roundNat (N * 2 ^ sh.toNat) (D * 2 ^ (-sh).toNat)
    if 971 < u ∨ (u = 971 ∧ 2 ^ 53 ≤ m) then inf negative
    else canon negative m u

/-- Addition of doubles. -/
def add : Dbl → Dbl → Dbl
  | fin s1 m1 e1, fin s2 m2 e2 =>
    let e := min e1 e2
    let a : ℤ := (if s1 then -1 else 1) * ((m1 * 2 ^ (e1 - e).toNat : ℕ) : ℤ)
    let b : ℤ := (if s2 then -1 else 1) * ((m2 * 2 ^ (e2 - e).toNat : ℕ) : ℤ)
    if a + b = 0 then fin (s1 && s2) 0 0
    else round (decide (a + b < 0)) (a + b).natAbs 1 e
  | nan, _ => nan
  | _, nan => nan
  | inf s1, inf s2 => if s1 = s2 then inf s1 else nan
  | inf s1, fin _ _ _ => inf s1
  | fin _ _ _, inf s2 => inf s2

/-- Multiplication of doubles. -/
def mul : Dbl → Dbl → Dbl
  | fin s1 m1 e1, fin s2 m2 e2 => round (xor s1 s2) (m1 * m2) 1 (e1 + e2)
  | nan, _ => nan
  | _, nan => nan
  | fin s1 m _, inf s2 => if m = 0 then nan else inf (xor s1 s2)
  | inf s1, fin s2 m _ => if m = 0 then nan else inf (xor s1 s2)
  | inf s1, inf s2 => inf (xor s1 s2)

/-- Division of doubles. -/
def div : Dbl → Dbl → Dbl
  | fin s1 m1 e1, fin s2 m2 e2 =>
    if m2 = 0 then (if m1 = 0 then nan else inf (xor s1 s2))
    else round (xor s1 s2) m1 m2 (e1 - e2)
  | nan, _ => nan
  | _, nan => nan
  | fin s1 _ _, inf s2 => fin (xor s1 s2) 0 0
  | inf s1, fin s2 _ _ => inf (xor s1 s2)
  | inf _, inf _ => nan

/-- Negation of doubles. -/
def neg : Dbl → Dbl
  | fin s m e => fin (!s) m e
  | inf s => inf (!s)
  | nan => nan

instance : Zero Dbl := ⟨fin false 0 0⟩
instance : One Dbl := ⟨fin false 1 0⟩
instance : Add Dbl := ⟨add⟩
instance : Mul Dbl := ⟨mul⟩
instance : Div Dbl := ⟨div⟩
instance : Neg Dbl := ⟨neg⟩
instance : Sub Dbl := ⟨fun a b => add a (neg b)⟩

/-- A decimal literal `mantissa * 10 ^ (± exponent)` is the nearest double. -/
instance : OfScientific Dbl :=
  ⟨fun mantissa exponentSign exponent =>
    if exponentSign then round false mantissa (10 ^ exponent) 0
    else round false (mantissa * 10 ^ exponent) 1 0⟩

/-- The comparison `<` of doubles; a NaN compares false with everything. -/
def lt : Dbl → Dbl → Bool
  | fin s1 m1 e1, fin s2 m2 e2 =>
    let e := min e1 e2
    let a : ℤ := (if s1 then -1 else 1) * ((m1 * 2 ^ (e1 - e).toNat : ℕ) : ℤ)
    let b : ℤ := (if s2 then -1 else 1) * ((m2 * 2 ^ (e2 - e).toNat : ℕ) : ℤ)
    decide (a < b)
  | nan, _ => false
  | _, nan => false
  | inf s1, inf s2 => s1 && !s2
  | inf s1, fin _ _ _ => s1
  | fin _ _ _, inf s2 => !s2

instance : LT Dbl := ⟨fun a b => lt a b = true⟩

instance (a b : Dbl) : Decidable (a < b) := inferInstanceAs (Decidable (lt a b = true))

/-- The C library `pow` at the exponents at which its value does not depend on the
library: `pow(x, 1.0)` is `x` and `pow(x, 0.0)` is `1`. The value at any other exponent
is not modelled and is given as NaN. -/
def pow (x p : Dbl) : Dbl :=
  if p = fin false 1 0 then x else if p = fin false 0 0 ∨ p = fin true 0 0 then fin false 1 0
  else nan

end Dbl

/-- The zero matrix, as the oscillation matrix of every cell. -/
def zeroB : ℕ → ℕ → ℕ → Dbl := fun _ _ _ => 0.0

/-- The identity matrix, as the oscillation matrix of every cell. -/
def identityB : ℕ → ℕ → ℕ → Dbl := fun _ P Q => if P = Q then 1.0 else 0.0

/-- The positive-semidefinite rank-one matrix `u uᵀ` with `u = (1, 2, 3)`, whose entries
`1, 2, 3, 4, 6, 9` are exact doubles, as the oscillation matrix of every cell. -/
def rankOneB : ℕ → ℕ → ℕ → Dbl := fun _ P Q =>
  (if P = 0 then 1.0 else if P = 1 then 2.0 else 3.0)
    * (if Q = 0 then 1.0 else if Q = 1 then 2.0 else 3.0)

/-! ## Loop lemmas -/

section lemmas

variable {K : Type} [LinearOrderedField K]

theorem forAll_zero {σ : Type} (body : ℕ → σ → σ) (s : σ) : forAll 0 body s = s := rfl

theorem forAll_succ {σ : Type} (n : ℕ) (body : ℕ → σ → σ) (s : σ) :
    forAll (n + 1) body s = body n (forAll n body s) := by
  simp [forAll, List.range_succ, List.foldl_append]

/-- An accumulation loop `acc += f i` computes the finite sum. -/
theorem forAll_add (n : ℕ) (f : ℕ → K) (a : K) :
    forAll n (fun i acc => acc + f i) a = a + ∑ i ∈ Finset.range n, f i := by
  induction n with
  | zero => simp [forAll_zero]
  | succ n ih => rw [forAll_succ, ih, Finset.sum_range_succ]; ring

/-- A loop that rewrites entry `i` of a buffer in iteration `i` keeps the length. -/
theorem forAll_set_length (n : ℕ) (g : ℕ → K → K) (cw : List K) :
    (forAll n (fun i b => b.set i (g i (b.getD i 0))) cw).length = cw.length := by
  induction n with
  | zero => simp [forAll_zero]
  | succ n ih => rw [forAll_succ, List.length_set, ih]

/-- A loop that rewrites entry `i` of a buffer in iteration `i`: entry `j` of the result. -/
theorem forAll_set_getD (n : ℕ) (g : ℕ → K → K) (cw : List K) (j : ℕ) (hj : j < cw.length) :
    (forAll n (fun i b => b.set i (g i (b.getD i 0))) cw).getD j 0
      = if j < n then g j (cw.getD j 0) else cw.getD j 0 := by
  induction n with
  | zero => simp [forAll_zero]
  | succ n ih =>
    rw [forAll_succ]
    have hlen := forAll_set_length n g cw
    rcases Nat.lt_trichotomy j n with h | h | h
    · have hne : n ≠ j := by omega
      rw [List.getD_eq_getElem?_getD, List.getElem?_set_ne hne, ← List.getD_eq_getElem?_getD, ih]
      simp [h, Nat.lt_succ_of_lt h]
    · subst h
      have hj2 : j < (forAll j (fun i b => b.set i (g i (b.getD i 0))) cw).length := by
        rw [hlen]; exact hj
      rw [List.getD_eq_getElem?_getD, List.getElem?_set_self hj2, ih]
      simp
    · have hne : n ≠ j := by omega
      rw [List.getD_eq_getElem?_getD, List.getElem?_set_ne hne, ← List.getD_eq_getElem?_getD, ih]
      have h1 : ¬ j < n := by omega
      have h2 : ¬ j < n + 1 := by omega
      simp [h1, h2]

/-- The inner loop computes row `coeffP` of `B` times the coefficient vector. -/
theorem sumB_eq (B : ℕ → ℕ → K) (c : List K) (P : ℕ) :
    sumB B c P = ∑ Q ∈ Finset.range c.length, B P Q * c.getD Q 0 := by
  unfold sumB; rw [forAll_add]; simp

/-- The smoothness-indicator loop computes the quadratic form of `B` at the vector. -/
theorem smoothInd_eq (B : ℕ → ℕ → K) (c : List K) :
    smoothInd B c
      = ∑ P ∈ Finset.range c.length, ∑ Q ∈ Finset.range c.length,
          c.getD P 0 * B P Q * c.getD Q 0 := by
  unfold smoothInd; rw [forAll_add, zero_add]
  refine Finset.sum_congr rfl (fun P _ => ?_)
  rw [sumB_eq, Finset.mul_sum]
  exact Finset.sum_congr rfl (fun Q _ => by ring)

theorem accumulate_length (cw c : List K) (g : K) : (accumulate cw c g).length = cw.length :=
  forAll_set_length c.length (fun i v => v + c.getD i 0 * g) cw

theorem accumulate_getD (cw c : List K) (g : K) (j : ℕ) (hj : j < cw.length) :
    (accumulate cw c g).getD j 0 = cw.getD j 0 + c.getD j 0 * g := by
  unfold accumulate
  rw [forAll_set_getD c.length (fun i v => v + c.getD i 0 * g) cw j hj]
  split
  · rfl
  · rename_i h
    rw [List.getD_eq_default c 0 (by omega)]; simp

theorem normalise_length (cw : List K) (G : K) : (normalise cw G).length = cw.length :=
  forAll_set_length cw.length (fun _ v => v / G) cw

theorem normalise_getD (cw : List K) (G : K) (j : ℕ) (hj : j < cw.length) :
    (normalise cw G).getD j 0 = cw.getD j 0 / G := by
  unfold normalise
  rw [forAll_set_getD cw.length (fun _ v => v / G) cw j hj, if_pos hj]

/-- The state after the first `n` stencils. -/
theorem stencilLoop_upto (pow : K → K → K) (self : WENOCoeff K) (cw : List K) (cellI : ℕ)
    (coeffsI : List (List K)) (n : ℕ) :
    (forAll n (stencilStep pow self cellI coeffsI) (0, cw)).1
        = ∑ i ∈ Finset.range n, stencilGamma pow self cellI coeffsI i
    ∧ (forAll n (stencilStep pow self cellI coeffsI) (0, cw)).2.length = cw.length
    ∧ ∀ j, j < cw.length →
        (forAll n (stencilStep pow self cellI coeffsI) (0, cw)).2.getD j 0
          = cw.getD j 0 + ∑ i ∈ Finset.range n,
              (coeffsI.getD i []).getD j 0 * stencilGamma pow self cellI coeffsI i := by
  induction n with
  | zero => simp [forAll_zero]
  | succ n ih =>
    obtain ⟨h1, h2, h3⟩ := ih
    rw [forAll_succ]
    refine ⟨?_, ?_, ?_⟩
    · simp only [stencilStep]; rw [h1, Finset.sum_range_succ]
    · simp only [stencilStep]; rw [accumulate_length, h2]
    · intro j hj
      simp only [stencilStep]
      rw [accumulate_getD _ _ _ j (by rw [h2]; exact hj), h3 j hj, Finset.sum_range_succ]
      ring

/-- The value of `gammaSum` after the loop is the sum of the stencils' `gamma`, whatever
the buffer passed in. -/
theorem stencilLoop_fst (pow : K → K → K) (self : WENOCoeff K) (cw : List K) (cellI : ℕ)
    (coeffsI : List (List K)) :
    (stencilLoop pow self cw cellI coeffsI).1 = gammaSum pow self cellI coeffsI := by
  unfold gammaSum stencilLoop
  rw [(stencilLoop_upto pow self cw cellI coeffsI _).1,
    (stencilLoop_upto pow self [] cellI coeffsI _).1]

theorem gammaSum_eq (pow : K → K → K) (self : WENOCoeff K) (cellI : ℕ)
    (coeffsI : List (List K)) :
    gammaSum pow self cellI coeffsI
      = ∑ i ∈ Finset.range coeffsI.length, stencilGamma pow self cellI coeffsI i :=
  (stencilLoop_upto pow self [] cellI coeffsI _).1

theorem calcWeight_length (pow : K → K → K) (self : WENOCoeff K) (cw : List K) (cellI : ℕ)
    (coeffsI : List (List K)) :
    (calcWeight pow self cw cellI coeffsI).length = cw.length := by
  unfold calcWeight
  simp only []
  rw [normalise_length]
  exact (stencilLoop_upto pow self cw cellI coeffsI _).2.1

/-- Entry `j` of the buffer on exit, for any initial buffer. -/
theorem calcWeight_getD (pow : K → K → K) (self : WENOCoeff K) (cw : List K) (cellI : ℕ)
    (coeffsI : List (List K)) (j : ℕ) (hj : j < cw.length) :
    (calcWeight pow self cw cellI coeffsI).getD j 0
      = (cw.getD j 0 + ∑ i ∈ Finset.range coeffsI.length,
            (coeffsI.getD i []).getD j 0 * stencilGamma pow self cellI coeffsI i)
          / gammaSum pow self cellI coeffsI := by
  unfold calcWeight
  simp only []
  have h := stencilLoop_upto pow self cw cellI coeffsI coeffsI.length
  rw [normalise_getD _ _ j (by unfold stencilLoop; rw [h.2.1]; exact hj), stencilLoop_fst]
  unfold stencilLoop
  rw [h.2.2 j hj]

/-- With a positive bias, a positive regularised indicator and a positive power, `gamma` is
positive. -/
theorem stencilGamma_pos (pow : K → K → K) (self : WENOCoeff K) (cellI : ℕ)
    (coeffsI : List (List K)) (i : ℕ) (hdm : 0 < self.dm_)
    (hpos : 0 < pow (10e-6 + smoothInd (self.B_ cellI) (coeffsI.getD i [])) self.p_) :
    0 < stencilGamma pow self cellI coeffsI i := by
  unfold stencilGamma gammaOf
  split
  · exact div_pos hdm hpos
  · exact div_pos one_pos hpos

/-- With at least one stencil and every `gamma` positive, `gammaSum` is positive. -/
theorem gammaSum_pos (pow : K → K → K) (self : WENOCoeff K) (cellI : ℕ)
    (coeffsI : List (List K)) (hn : 1 ≤ coeffsI.length)
    (hg : ∀ i, i < coeffsI.length → 0 < stencilGamma pow self cellI coeffsI i) :
    0 < gammaSum pow self cellI coeffsI := by
  rw [gammaSum_eq]
  apply Finset.sum_pos
  · intro i hi; exact hg i (Finset.mem_range.mp hi)
  · exact ⟨0, Finset.mem_range.mpr hn⟩

/-- The weights sum to one as soon as `gammaSum` is not zero. -/
theorem weight_sum (pow : K → K → K) (self : WENOCoeff K) (cellI : ℕ)
    (coeffsI : List (List K)) (hG : gammaSum pow self cellI coeffsI ≠ 0) :
    ∑ i ∈ Finset.range coeffsI.length, weight pow self cellI coeffsI i = 1 := by
  simp only [weight]
  rw [← Finset.sum_div, ← gammaSum_eq, div_self hG]

/-- The integer power of a positive rational is positive. -/
theorem powQ_pos (p : ℚ) (x : ℚ) (hx : 0 < x) : 0 < powQ x p := zpow_pos hx _

/-- The integer power with exponent `4` is strictly increasing on positive rationals. -/
theorem powQ_four_lt (x y : ℚ) (hx : 0 < x) (hxy : x < y) : powQ x 4 < powQ y 4 := by
  have h : ⌊(4 : ℚ)⌋ = ((4 : ℕ) : ℤ) := by norm_num
  unfold powQ
  rw [h, zpow_natCast, zpow_natCast]
  exact pow_lt_pow_left₀ hxy (le_of_lt hx) (by norm_num)

omit [LinearOrderedField K] in
/-- An in-range read of the stencil list yields one of its members. -/
theorem getD_mem_of_lt (coeffsI : List (List K)) (i : ℕ) (hi : i < coeffsI.length) :
    coeffsI.getD i [] ∈ coeffsI := by
  rw [List.getD_eq_getElem coeffsI [] hi]
  exact List.getElem_mem hi

/-- Two buffers of one length with the same entries are equal. -/
theorem ext_getD (a b : List K) (hlen : a.length = b.length)
    (h : ∀ j, j < b.length → a.getD j 0 = b.getD j 0) : a = b := by
  apply List.ext_getElem hlen
  intro j h1 h2
  have := h j h2
  rwa [List.getD_eq_getElem a 0 h1, List.getD_eq_getElem b 0 h2] at this

/-- A sum whose first term is `a` and whose other terms are `b`. -/
theorem sum_first_rest (n : ℕ) (a b : K) (hn : 1 ≤ n) :
    ∑ i ∈ Finset.range n, (if i = 0 then a else b) = a + ((n : K) - 1) * b := by
  obtain ⟨m, rfl⟩ : ∃ m, n = m + 1 := ⟨n - 1, by omega⟩
  rw [Finset.sum_range_succ' (fun i => if i = 0 then a else b) m]
  simp
  ring

/-- The value of `gammaSum` when every stencil has the same smoothness indicator `s`. -/
theorem gammaSum_of_equal (pow : K → K → K) (self : WENOCoeff K) (cellI : ℕ)
    (coeffsI : List (List K)) (s : K) (hn : 1 ≤ coeffsI.length)
    (hs : ∀ i, i < coeffsI.length → smoothInd (self.B_ cellI) (coeffsI.getD i []) = s) :
    gammaSum pow self cellI coeffsI
      = (self.dm_ + (coeffsI.length : K) - 1) / pow (10e-6 + s) self.p_ := by
  rw [gammaSum_eq]
  have h : ∀ i ∈ Finset.range coeffsI.length, stencilGamma pow self cellI coeffsI i
      = if i = 0 then self.dm_ / pow (10e-6 + s) self.p_ else 1 / pow (10e-6 + s) self.p_ := by
    intro i hi
    unfold stencilGamma gammaOf
    rw [hs i (Finset.mem_range.mp hi)]
  rw [Finset.sum_congr rfl h, sum_first_rest _ _ _ hn]
  ring

/-- The state after the first `n` iterations of a stencil loop that uses the value `g i`
as the `gamma` of stencil `i`. -/
theorem gammaLoop_upto (g : ℕ → K) (coeffsI : List (List K)) (cw : List K) (n : ℕ) :
    (forAll n (fun i (st : K × List K) =>
        (st.1 + g i, accumulate st.2 (coeffsI.getD i []) (g i))) (0, cw)).1
        = ∑ i ∈ Finset.range n, g i
    ∧ (forAll n (fun i (st : K × List K) =>
        (st.1 + g i, accumulate st.2 (coeffsI.getD i []) (g i))) (0, cw)).2.length = cw.length
    ∧ ∀ j, j < cw.length →
        (forAll n (fun i (st : K × List K) =>
          (st.1 + g i, accumulate st.2 (coeffsI.getD i []) (g i))) (0, cw)).2.getD j 0
          = cw.getD j 0 + ∑ i ∈ Finset.range n, (coeffsI.getD i []).getD j 0 * g i := by
  induction n with
  | zero => simp [forAll_zero]
  | succ n ih =>
    obtain ⟨h1, h2, h3⟩ := ih
    rw [forAll_succ]
    refine ⟨?_, ?_, ?_⟩
    · simp only []; rw [h1, Finset.sum_range_succ]
    · simp only []; rw [accumulate_length, h2]
    · intro j hj
      simp only []
      rw [accumulate_getD _ _ _ j (by rw [h2]; exact hj), h3 j hj, Finset.sum_range_succ]
      ring

theorem calcWeightForced_length (pow : K → K → K) (self : WENOCoeff K) (excluded : ℕ)
    (cw : List K) (cellI : ℕ) (coeffsI : List (List K)) :
    (calcWeightForced pow self excluded cw cellI coeffsI).length = cw.length := by
  unfold calcWeightForced
  simp only []
  rw [normalise_length]
  exact (gammaLoop_upto (fun i => if i = excluded then 0
    else stencilGamma pow self cellI coeffsI i) coeffsI cw _).2.1

/-- Entry `j` of the buffer after the run with one `gamma` forced to zero. -/
theorem calcWeightForced_getD (pow : K → K → K) (self : WENOCoeff K) (excluded : ℕ)
    (cw : List K) (cellI : ℕ) (coeffsI : List (List K)) (j : ℕ) (hj : j < cw.length) :
    (calcWeightForced pow self excluded cw cellI coeffsI).getD j 0
      = (cw.getD j 0 + ∑ i ∈ Finset.range coeffsI.length,
            (coeffsI.getD i []).getD j 0
              * (if i = excluded then 0 else stencilGamma pow self cellI coeffsI i))
          / ∑ i ∈ Finset.range coeffsI.length,
              (if i = excluded then 0 else stencilGamma pow self cellI coeffsI i) := by
  have h := gammaLoop_upto (fun i => if i = excluded then 0
    else stencilGamma pow self cellI coeffsI i) coeffsI cw coeffsI.length
  unfold calcWeightForced
  simp only []
  rw [normalise_getD _ _ j (by
    show j < (forAll coeffsI.length (fun i (st : K × List K) =>
      (st.1 + (if i = excluded then 0 else stencilGamma pow self cellI coeffsI i),
        accumulate st.2 (coeffsI.getD i [])
          (if i = excluded then 0 else stencilGamma pow self cellI coeffsI i))) (0, cw)).2.length
    rw [h.2.1]; exact hj)]
  show (forAll coeffsI.length (fun i (st : K × List K) =>
      (st.1 + (if i = excluded then 0 else stencilGamma pow self cellI coeffsI i),
        accumulate st.2 (coeffsI.getD i [])
          (if i = excluded then 0 else stencilGamma pow self cellI coeffsI i))) (0, cw)).2.getD j 0
    / (forAll coeffsI.length (fun i (st : K × List K) =>
      (st.1 + (if i = excluded then 0 else stencilGamma pow self cellI coeffsI i),
        accumulate st.2 (coeffsI.getD i [])
          (if i = excluded then 0 else stencilGamma pow self cellI coeffsI i))) (0, cw)).1 = _
  rw [h.1, h.2.2 j hj]

/-- A sum along a list with one position left out, for a summand that does not depend on
the position. -/
theorem sum_eraseIdx {α : Type} (G : α → K) (d : α) (l : List α) (j : ℕ) :
    ∑ i ∈ Finset.range (l.eraseIdx j).length, G ((l.eraseIdx j).getD i d)
      = ∑ i ∈ Finset.range l.length, (if i = j then 0 else G (l.getD i d)) := by
  induction l generalizing j with
  | nil => simp
  | cons a t ih =>
    cases j with
    | zero =>
      rw [List.eraseIdx_cons_zero, List.length_cons, Finset.sum_range_succ']
      simp
    | succ j =>
      rw [List.eraseIdx_cons_succ, List.length_cons, List.length_cons,
        Finset.sum_range_succ', Finset.sum_range_succ']
      simp only [List.getD_cons_succ, List.getD_cons_zero, add_left_inj]
      rw [ih j]
      simp

/-- A sum along a list with a sectorial position left out, for a summand that depends on
the position only through being central or sectorial. -/
theorem sum_eraseIdx_sectorial {α : Type} (F : ℕ → α → K) (d : α) (l : List α) (j : ℕ)
    (hj : 1 ≤ j) (hF : ∀ i c, F (i + 1) c = F 1 c) :
    ∑ i ∈ Finset.range (l.eraseIdx j).length, F i ((l.eraseIdx j).getD i d)
      = ∑ i ∈ Finset.range l.length, (if i = j then 0 else F i (l.getD i d)) := by
  obtain ⟨j, rfl⟩ : ∃ m, j = m + 1 := ⟨j - 1, by omega⟩
  cases l with
  | nil => simp
  | cons a t =>
    rw [List.eraseIdx_cons_succ, List.length_cons, List.length_cons,
      Finset.sum_range_succ', Finset.sum_range_succ']
    simp only [List.getD_cons_succ, List.getD_cons_zero, hF]
    rw [sum_eraseIdx (F 1) d t j]
    simp

/-- A vector whose entries are all zero reads zero at every index. -/
theorem getD_of_all_zero (z : List K) (hz : ∀ v ∈ z, v = 0) (i : ℕ) : z.getD i 0 = 0 := by
  by_cases hi : i < z.length
  · rw [List.getD_eq_getElem z 0 hi]; exact hz _ (List.getElem_mem hi)
  · exact List.getD_eq_default z 0 (by omega)

/-- Over the zero oscillation matrix every smoothness indicator is zero, so the
regularised base is `10e-6`. -/
theorem smoothInd_nonneg_of_zero_matrix (c : List K) :
    (0 : K) < 10e-6 + smoothInd (fun _ _ => (0 : K)) c := by
  have h : smoothInd (fun _ _ => (0 : K)) c = 0 := by
    rw [smoothInd_eq]
    exact Finset.sum_eq_zero (fun P _ => Finset.sum_eq_zero (fun Q _ => by ring))
  rw [h]; norm_num

/-- The smoothness indicator of a vector that is empty or all zero is zero. -/
theorem smoothInd_of_all_zero (B : ℕ → ℕ → K) (z : List K) (hz : ∀ v ∈ z, v = 0) :
    smoothInd B z = 0 := by
  rw [smoothInd_eq]
  refine Finset.sum_eq_zero (fun P _ => Finset.sum_eq_zero (fun Q _ => ?_))
  rw [getD_of_all_zero z hz P]; ring

/-- Appending a stencil does not change the `gamma` of the stencils before it. -/
theorem stencilGamma_append_left (pow : K → K → K) (self : WENOCoeff K) (cellI : ℕ)
    (coeffsI : List (List K)) (z : List K) (i : ℕ) (hi : i < coeffsI.length) :
    stencilGamma pow self cellI (coeffsI ++ [z]) i = stencilGamma pow self cellI coeffsI i := by
  unfold stencilGamma
  rw [List.getD_append coeffsI [z] [] i hi]

/-- The `gamma` of an appended stencil that is empty or all zero. -/
theorem stencilGamma_append_zero (pow : K → K → K) (self : WENOCoeff K) (cellI : ℕ)
    (coeffsI : List (List K)) (z : List K) (hz : ∀ v ∈ z, v = 0) :
    stencilGamma pow self cellI (coeffsI ++ [z]) coeffsI.length
      = if coeffsI.length = 0 then self.dm_ / pow 10e-6 self.p_
        else 1 / pow 10e-6 self.p_ := by
  unfold stencilGamma gammaOf
  rw [List.getD_append_right coeffsI [z] [] coeffsI.length (le_refl _)]
  simp only [Nat.sub_self, List.getD_cons_zero]
  rw [smoothInd_of_all_zero _ z hz, add_zero]

omit [LinearOrderedField K] in
theorem setComponent_length (field : List (ℕ → K)) (compI : ℕ) (vals : List K)
    (h : vals.length = field.length) : (setComponent field compI vals).length = field.length := by
  unfold setComponent
  rw [List.length_zipWith, h, min_self]

omit [LinearOrderedField K] in
/-- Storing a component changes that component and no other. -/
theorem component_setComponent (field : List (ℕ → K)) (compI : ℕ) (vals : List K)
    (h : vals.length = field.length) (c : ℕ) :
    component c (setComponent field compI vals)
      = if c = compI then vals else component c field := by
  induction field generalizing vals with
  | nil =>
    cases vals with
    | nil => simp [component, setComponent]
    | cons a t => simp at h
  | cons v field ih =>
    cases vals with
    | nil => simp at h
    | cons a t =>
      have ht : t.length = field.length := by simpa using h
      have := ih t ht
      unfold component setComponent at this ⊢
      simp only [List.zipWith_cons_cons, List.map_cons]
      rw [this]
      by_cases hc : c = compI
      · subst hc; simp
      · simp [hc, Function.update_noteq hc]

/-- The buffer after the first `m` components have been combined. -/
theorem calcWeightComp_upto (pow : K → K → K) (self : WENOCoeff K) (cw : List (ℕ → K))
    (cellI : ℕ) (coeffsI : List (List (ℕ → K))) (m : ℕ) :
    (forAll m (fun compI b =>
        setComponent b compI
          (calcWeight pow self (component compI b) cellI (coeffsI.map (component compI))))
        cw).length = cw.length
    ∧ ∀ c, component c (forAll m (fun compI b =>
        setComponent b compI
          (calcWeight pow self (component compI b) cellI (coeffsI.map (component compI))))
        cw)
      = if c < m then
          calcWeight pow self (component c cw) cellI (coeffsI.map (component c))
        else component c cw := by
  induction m with
  | zero => simp [forAll_zero]
  | succ m ih =>
    obtain ⟨h1, h2⟩ := ih
    rw [forAll_succ]
    have hlen : (calcWeight pow self (component m (forAll m (fun compI b =>
        setComponent b compI
          (calcWeight pow self (component compI b) cellI (coeffsI.map (component compI))))
        cw)) cellI (coeffsI.map (component m))).length
        = (forAll m (fun compI b =>
        setComponent b compI
          (calcWeight pow self (component compI b) cellI (coeffsI.map (component compI))))
        cw).length := by
      rw [calcWeight_length]; simp [component]
    refine ⟨?_, fun c => ?_⟩
    · rw [setComponent_length _ _ _ hlen, h1]
    · rw [component_setComponent _ _ _ hlen c]
      by_cases hc : c = m
      · subst hc
        rw [if_pos rfl, h2 c, if_neg (lt_irrefl c), if_pos (Nat.lt_succ_self c)]
      · rw [if_neg hc, h2 c]
        by_cases hlt : c < m
        · rw [if_pos hlt, if_pos (Nat.lt_succ_of_lt hlt)]
        · rw [if_neg hlt, if_neg (by omega)]

end lemmas

/-! ## Lemmas on `addCoeffs` -/

section flatten

variable {K : Type}

theorem emitList_nil (st : (ℕ → K) × ℕ) : emitList st [] = st := rfl

theorem emitList_cons (st : (ℕ → K) × ℕ) (v : K) (vs : List K) :
    emitList st (v :: vs) = emitList (emit st v) vs := rfl

theorem emitList_append (st : (ℕ → K) × ℕ) (vs ws : List K) :
    emitList st (vs ++ ws) = emitList (emitList st vs) ws := by
  simp [emitList, List.foldl_append]

/-- A loop whose body writes a list of values writes the concatenation of the lists. -/
theorem forAll_emitList (n : ℕ) (f : ℕ → List K) (st : (ℕ → K) × ℕ) :
    forAll n (fun i s => emitList s (f i)) st = emitList st ((List.range n).flatMap f) := by
  induction n with
  | zero => simp [forAll_zero, emitList_nil]
  | succ n ih =>
    rw [forAll_succ, ih, List.range_succ, List.flatMap_append, emitList_append]
    simp [emitList_nil, emitList_cons, List.flatMap]

/-- After writing `vs`, `curIdx` has advanced by the length of `vs`. -/
theorem emitList_snd (vs : List K) (st : (ℕ → K) × ℕ) :
    (emitList st vs).2 = st.2 + vs.length := by
  induction vs generalizing st with
  | nil => simp [emitList_nil]
  | cons v vs ih => rw [emitList_cons, ih]; simp [emit]; omega

/-- Writing `vs` leaves every entry outside the written window as it was. -/
theorem emitList_fst_outside (vs : List K) (st : (ℕ → K) × ℕ) (i : ℕ)
    (hi : i < st.2 ∨ st.2 + vs.length ≤ i) : (emitList st vs).1 i = st.1 i := by
  induction vs generalizing st with
  | nil => simp [emitList_nil]
  | cons v vs ih =>
    rw [emitList_cons, ih]
    · have hne : i ≠ st.2 := by
        rcases hi with h | h
        · omega
        · simp at h; omega
      simp [emit, Function.update_noteq hne]
    · rcases hi with h | h
      · left; simp [emit]; omega
      · right; simp [emit] at h ⊢; omega

/-- Writing `vs` puts its entry `j` at `coeffs[curIdx + j]`. -/
theorem emitList_fst_written (vs : List K) (st : (ℕ → K) × ℕ) (j : ℕ) (hj : j < vs.length) :
    (emitList st vs).1 (st.2 + j) = vs.get ⟨j, hj⟩ := by
  induction vs generalizing st j with
  | nil => simp at hj
  | cons v vs ih =>
    rw [emitList_cons]
    cases j with
    | zero =>
      rw [emitList_fst_outside vs (emit st v) (st.2 + 0) (by left; simp [emit])]
      simp [emit]
    | succ j =>
      have hj2 : j < vs.length := by simp at hj; omega
      have := ih (emit st v) j hj2
      have he : (emit st v).2 + j = st.2 + (j + 1) := by simp [emit]; omega
      rw [he] at this
      rw [this]; rfl

/-- The loop nest of `addCoeffs` writes the values of `x_circ_` at `monomials`, in order,
from `curIdx = 0`. -/
theorem addCoeffs_eq (coeffs : ℕ → K) (polOrder : ℤ) (dim : ℤ × ℤ × ℤ)
    (x : ℕ → ℕ → ℕ → K) :
    addCoeffs coeffs polOrder dim x
      = emitList (coeffs, 0) ((monomials polOrder dim).map fun t => x t.1 t.2.1 t.2.2) := by
  unfold addCoeffs monomials forUpTo
  have inner : ∀ (n m : ℕ) (st : (ℕ → K) × ℕ),
      forAll (dim.2.2 + 1).toNat (fun l st =>
        if ((n : ℤ) + m + l) ≤ polOrder ∧ ((n : ℤ) + m + l) > 0 then emit st (x n m l)
        else st) st
      = emitList st (((List.range (dim.2.2 + 1).toNat).flatMap fun l =>
          if ((n : ℤ) + m + l) ≤ polOrder ∧ ((n : ℤ) + m + l) > 0 then [(n, m, l)]
          else []).map fun t => x t.1 t.2.1 t.2.2) := by
    intro n m st
    rw [List.map_flatMap, ← forAll_emitList]
    congr 1
    funext l s
    split <;> rfl
  have middle : ∀ (n : ℕ) (st : (ℕ → K) × ℕ),
      forAll (dim.2.1 + 1).toNat (fun m st =>
        forAll (dim.2.2 + 1).toNat (fun l st =>
          if ((n : ℤ) + m + l) ≤ polOrder ∧ ((n : ℤ) + m + l) > 0 then emit st (x n m l)
          else st) st) st
      = emitList st (((List.range (dim.2.1 + 1).toNat).flatMap fun m =>
          (List.range (dim.2.2 + 1).toNat).flatMap fun l =>
            if ((n : ℤ) + m + l) ≤ polOrder ∧ ((n : ℤ) + m + l) > 0 then [(n, m, l)]
            else []).map fun t => x t.1 t.2.1 t.2.2) := by
    intro n st
    rw [List.map_flatMap, ← forAll_emitList]
    congr 1
    funext m s
    exact inner n m s
  rw [List.map_flatMap, ← forAll_emitList]
  congr 1
  funext n s
  exact middle n s

/-- The triples at which `addCoeffs` writes are the admissible ones. -/
theorem mem_monomials (polOrder : ℤ) (dim : ℤ × ℤ × ℤ) (t : ℕ × ℕ × ℕ) :
    t ∈ monomials polOrder dim ↔ admissible polOrder dim t := by
  obtain ⟨n, m, l⟩ := t
  unfold monomials admissible
  simp only [List.mem_flatMap, List.mem_range]
  constructor
  · rintro ⟨n', hn, m', hm, l', hl, h⟩
    split at h
    · rename_i hc
      simp only [List.mem_singleton, Prod.mk.injEq] at h
      obtain ⟨rfl, rfl, rfl⟩ := h
      omega
    · simp at h
  · rintro ⟨h1, h2, h3, h4, h5⟩
    refine ⟨n, by omega, m, by omega, l, by omega, ?_⟩
    rw [if_pos ⟨h5, h4⟩]
    simp

/-- The iteration order of `addCoeffs` is strictly increasing in the lexicographic order. -/
theorem monomials_pairwise (polOrder : ℤ) (dim : ℤ × ℤ × ℤ) :
    (monomials polOrder dim).Pairwise lexLt := by
  have mem_inner : ∀ (n m : ℕ) (t : ℕ × ℕ × ℕ),
      t ∈ ((List.range (dim.2.2 + 1).toNat).flatMap fun l =>
          if ((n : ℤ) + m + l) ≤ polOrder ∧ ((n : ℤ) + m + l) > 0 then [(n, m, l)]
          else []) → t.1 = n ∧ t.2.1 = m := by
    intro n m t ht
    simp only [List.mem_flatMap] at ht
    obtain ⟨l, _, h⟩ := ht
    split at h
    · simp only [List.mem_singleton] at h; subst h; exact ⟨rfl, rfl⟩
    · simp at h
  have mem_middle : ∀ (n : ℕ) (t : ℕ × ℕ × ℕ),
      t ∈ ((List.range (dim.2.1 + 1).toNat).flatMap fun m =>
          (List.range (dim.2.2 + 1).toNat).flatMap fun l =>
            if ((n : ℤ) + m + l) ≤ polOrder ∧ ((n : ℤ) + m + l) > 0 then [(n, m, l)]
            else []) → t.1 = n := by
    intro n t ht
    rw [List.mem_flatMap] at ht
    obtain ⟨m, _, h⟩ := ht
    exact (mem_inner n m t h).1
  unfold monomials
  rw [List.pairwise_flatMap]
  refine ⟨fun n _ => ?_, ?_⟩
  · rw [List.pairwise_flatMap]
    refine ⟨fun m _ => ?_, ?_⟩
    · rw [List.pairwise_flatMap]
      refine ⟨fun l _ => ?_, ?_⟩
      · split <;> simp
      · refine List.Pairwise.imp ?_ (List.pairwise_lt_range _)
        intro l1 l2 hl t ht u hu
        split at ht <;> split at hu <;> simp at ht hu
        subst ht; subst hu
        right; exact ⟨rfl, Or.inr ⟨rfl, hl⟩⟩
    · refine List.Pairwise.imp ?_ (List.pairwise_lt_range _)
      intro m1 m2 hm t ht u hu
      obtain ⟨a1, a2⟩ := mem_inner n m1 t ht
      obtain ⟨b1, b2⟩ := mem_inner n m2 u hu
      right; exact ⟨by omega, Or.inl (by omega)⟩
  · refine List.Pairwise.imp ?_ (List.pairwise_lt_range _)
    intro n1 n2 hn t ht u hu
    have a := mem_middle n1 t ht
    have b := mem_middle n2 u hu
    left; omega

/-- A strictly increasing list of triples has no duplicates. -/
theorem monomials_nodup (polOrder : ℤ) (dim : ℤ × ℤ × ℤ) : (monomials polOrder dim).Nodup := by
  refine List.Pairwise.imp ?_ (monomials_pairwise polOrder dim)
  intro t u h heq
  subst heq
  unfold lexLt at h
  omega

theorem position_lt (t : ℕ × ℕ × ℕ) (L : List (ℕ × ℕ × ℕ)) (h : t ∈ L) :
    position t L < L.length := by
  induction L with
  | nil => simp at h
  | cons u us ih =>
    unfold position
    split
    · simp
    · rename_i hne
      have : t ∈ us := by
        rcases List.mem_cons.mp h with h1 | h1
        · exact absurd h1.symm hne
        · exact h1
      simp only [List.length_cons]
      have := ih this
      omega

theorem get_position (t : ℕ × ℕ × ℕ) (L : List (ℕ × ℕ × ℕ)) (h : position t L < L.length) :
    L.get ⟨position t L, h⟩ = t := by
  induction L with
  | nil => simp at h
  | cons u us ih =>
    by_cases hu : u = t
    · simp [position, hu]
    · have hp : position t (u :: us) = position t us + 1 := by simp [position, hu]
      have h2 : position t us < us.length := by
        rw [hp] at h; simpa using h
      simp only [hp, List.get_eq_getElem, List.getElem_cons_succ]
      have := ih h2
      simpa using this

theorem position_get (L : List (ℕ × ℕ × ℕ)) (hnd : L.Nodup) (i : ℕ) (h : i < L.length) :
    position (L.get ⟨i, h⟩) L = i := by
  induction L generalizing i with
  | nil => simp at h
  | cons u us ih =>
    cases i with
    | zero => simp [position]
    | succ i =>
      have h2 : i < us.length := by simpa using h
      have hne : u ≠ us.get ⟨i, h2⟩ := by
        intro he
        exact (List.nodup_cons.mp hnd).1 (he ▸ List.get_mem us i h2)
      have := ih (List.nodup_cons.mp hnd).2 i h2
      simp only [List.get_eq_getElem, List.getElem_cons_succ] at this hne ⊢
      simp [position, hne, this]

/-- The vector written by `addCoeffs` is the array read along `monomials`. -/
theorem written_addCoeffs (coeffs : ℕ → K) (polOrder : ℤ) (dim : ℤ × ℤ × ℤ)
    (x : ℕ → ℕ → ℕ → K) :
    written (addCoeffs coeffs polOrder dim x)
      = (monomials polOrder dim).map fun t => x t.1 t.2.1 t.2.2 := by
  rw [addCoeffs_eq]
  unfold written
  apply List.ext_getElem
  · simp [emitList_snd]
  · intro i h1 h2
    have hi : i < ((monomials polOrder dim).map fun t => x t.1 t.2.1 t.2.2).length := h2
    have := emitList_fst_written _ (coeffs, 0) i hi
    simp only [Nat.zero_add] at this
    simp only [List.getElem_map, List.getElem_range]
    rw [this]
    simp

/-- The length of a concatenation over a loop range is the sum of the lengths. -/
theorem length_flatMap_range {α : Type} (n : ℕ) (f : ℕ → List α) :
    ((List.range n).flatMap f).length = ∑ i ∈ Finset.range n, (f i).length := by
  induction n with
  | zero => simp
  | succ n ih =>
    rw [List.range_succ, List.flatMap_append, List.length_append, ih, Finset.sum_range_succ]
    simp [List.flatMap]

/-- The number of `l < N` with `a + l ≤ P`. -/
theorem count_le (a P N : ℕ) :
    ∑ l ∈ Finset.range N, (if a + l ≤ P then 1 else 0) = min N (P + 1 - a) := by
  induction N with
  | zero => simp
  | succ N ih =>
    rw [Finset.sum_range_succ, ih]
    split <;> omega

/-- Twice the triangular sum `Q + (Q - 1) + .. + 1`, over a range at least that long. -/
theorem two_mul_sum_sub (Q N : ℕ) (h : Q ≤ N) :
    2 * ∑ m ∈ Finset.range N, (Q - m) = Q * (Q + 1) := by
  induction Q generalizing N with
  | zero => simp
  | succ Q ih =>
    obtain ⟨M, rfl⟩ : ∃ M, N = M + 1 := ⟨N - 1, by omega⟩
    rw [Finset.sum_range_succ']
    have hM : ∑ m ∈ Finset.range M, (Q + 1 - (m + 1)) = ∑ m ∈ Finset.range M, (Q - m) :=
      Finset.sum_congr rfl (fun m _ => by omega)
    rw [hM, Nat.mul_add, ih M (by omega)]
    simp only [Nat.sub_zero]
    ring

/-- Three times the sum of the doubled triangular numbers. -/
theorem three_mul_sum_tri (P : ℕ) :
    3 * ∑ n ∈ Finset.range (P + 1), (P + 1 - n) * (P + 2 - n)
      = (P + 1) * (P + 2) * (P + 3) := by
  induction P with
  | zero => simp
  | succ P ih =>
    rw [Finset.sum_range_succ']
    have hM : ∑ n ∈ Finset.range (P + 1), (P + 1 + 1 - (n + 1)) * (P + 1 + 2 - (n + 1))
        = ∑ n ∈ Finset.range (P + 1), (P + 1 - n) * (P + 2 - n) :=
      Finset.sum_congr rfl (fun n _ => by
        have e1 : P + 1 + 1 - (n + 1) = P + 1 - n := by omega
        have e2 : P + 1 + 2 - (n + 1) = P + 2 - n := by omega
        rw [e1, e2])
    rw [hM, Nat.mul_add, ih]
    simp only [Nat.sub_zero]
    ring

/-- The number of entries written, as a triple sum over the loop ranges, in `ℕ`. -/
theorem length_monomials (P : ℕ) (dim : ℤ × ℤ × ℤ) :
    (monomials (P : ℤ) dim).length
      = ∑ n ∈ Finset.range (dim.1 + 1).toNat, ∑ m ∈ Finset.range (dim.2.1 + 1).toNat,
          ∑ l ∈ Finset.range (dim.2.2 + 1).toNat,
            (if n + m + l ≤ P ∧ 0 < n + m + l then 1 else 0) := by
  unfold monomials
  rw [length_flatMap_range]
  refine Finset.sum_congr rfl (fun n _ => ?_)
  rw [length_flatMap_range]
  refine Finset.sum_congr rfl (fun m _ => ?_)
  rw [length_flatMap_range]
  refine Finset.sum_congr rfl (fun l _ => ?_)
  have hiff : (((n : ℤ) + m + l) ≤ (P : ℤ) ∧ ((n : ℤ) + m + l) > 0)
      ↔ (n + m + l ≤ P ∧ 0 < n + m + l) := by omega
  by_cases hc : n + m + l ≤ P ∧ 0 < n + m + l
  · rw [if_pos hc, if_pos (hiff.mpr hc)]; rfl
  · rw [if_neg hc, if_neg (fun h => hc (hiff.mp h))]; rfl

/-- Only the origin has degree zero. -/
theorem count_origin (N1 N2 N3 : ℕ) (h1 : 0 < N1) (h2 : 0 < N2) (h3 : 0 < N3) :
    ∑ n ∈ Finset.range N1, ∑ m ∈ Finset.range N2, ∑ l ∈ Finset.range N3,
      (if n + m + l = 0 then 1 else 0) = 1 := by
  rw [Finset.sum_eq_single 0, Finset.sum_eq_single 0, Finset.sum_eq_single 0]
  · simp
  · intro l _ hl; rw [if_neg (by omega)]
  · intro h; exact absurd (Finset.mem_range.mpr h3) h
  · intro m _ hm
    exact Finset.sum_eq_zero (fun l _ => by rw [if_neg (by omega)])
  · intro h; exact absurd (Finset.mem_range.mpr h2) h
  · intro n _ hn
    exact Finset.sum_eq_zero (fun m _ => Finset.sum_eq_zero (fun l _ => by
      rw [if_neg (by omega)]))
  · intro h; exact absurd (Finset.mem_range.mpr h1) h

/-- Adding the origin to the written triples gives all triples of degree at most `P`. -/
theorem length_monomials_succ (P : ℕ) (dim : ℤ × ℤ × ℤ) (h1 : 0 ≤ dim.1) (h2 : 0 ≤ dim.2.1)
    (h3 : 0 ≤ dim.2.2) :
    (monomials (P : ℤ) dim).length + 1
      = ∑ n ∈ Finset.range (dim.1 + 1).toNat, ∑ m ∈ Finset.range (dim.2.1 + 1).toNat,
          ∑ l ∈ Finset.range (dim.2.2 + 1).toNat, (if n + m + l ≤ P then 1 else 0) := by
  rw [length_monomials]
  have h0 := count_origin (dim.1 + 1).toNat (dim.2.1 + 1).toNat (dim.2.2 + 1).toNat
    (by omega) (by omega) (by omega)
  have hsum : (∑ n ∈ Finset.range (dim.1 + 1).toNat, ∑ m ∈ Finset.range (dim.2.1 + 1).toNat,
        ∑ l ∈ Finset.range (dim.2.2 + 1).toNat,
          (if n + m + l ≤ P ∧ 0 < n + m + l then 1 else 0))
      + (∑ n ∈ Finset.range (dim.1 + 1).toNat, ∑ m ∈ Finset.range (dim.2.1 + 1).toNat,
        ∑ l ∈ Finset.range (dim.2.2 + 1).toNat, (if n + m + l = 0 then 1 else 0))
      = ∑ n ∈ Finset.range (dim.1 + 1).toNat, ∑ m ∈ Finset.range (dim.2.1 + 1).toNat,
          ∑ l ∈ Finset.range (dim.2.2 + 1).toNat, (if n + m + l ≤ P then 1 else 0) := by
    simp only [← Finset.sum_add_distrib]
    refine Finset.sum_congr rfl (fun n _ => Finset.sum_congr rfl (fun m _ =>
      Finset.sum_congr rfl (fun l _ => ?_)))
    split_ifs <;> omega
  rw [← hsum, h0]

/-- In three dimensions with all caps `P`: six times the count with the origin. -/
theorem count_3D (P : ℕ) :
    6 * ((monomials (P : ℤ) ((P : ℤ), (P : ℤ), (P : ℤ))).length + 1)
      = (P + 1) * (P + 2) * (P + 3) := by
  rw [length_monomials_succ P _ (by simp) (by simp) (by simp)]
  have hN : ((P : ℤ) + 1).toNat = P + 1 := by omega
  simp only [hN]
  have inner : ∀ n m : ℕ, ∑ l ∈ Finset.range (P + 1), (if n + m + l ≤ P then 1 else 0)
      = P + 1 - n - m := by
    intro n m
    rw [count_le (n + m) P (P + 1)]; omega
  simp only [inner]
  have middle : ∀ n ∈ Finset.range (P + 1), 2 * ∑ m ∈ Finset.range (P + 1), (P + 1 - n - m)
      = (P + 1 - n) * (P + 2 - n) := by
    intro n hn
    have hn2 := Finset.mem_range.mp hn
    rw [two_mul_sum_sub (P + 1 - n) (P + 1) (by omega)]
    congr 1; omega
  have h6 : 6 * ∑ n ∈ Finset.range (P + 1), ∑ m ∈ Finset.range (P + 1), (P + 1 - n - m)
      = 3 * ∑ n ∈ Finset.range (P + 1), 2 * ∑ m ∈ Finset.range (P + 1), (P + 1 - n - m) := by
    rw [← Finset.mul_sum]; ring
  rw [h6, Finset.sum_congr rfl middle]
  exact three_mul_sum_tri P

/-- In two dimensions (`dim[2] = 0`) with caps `P`: twice the count with the origin. -/
theorem count_2D (P : ℕ) :
    2 * ((monomials (P : ℤ) ((P : ℤ), (P : ℤ), 0)).length + 1) = (P + 1) * (P + 2) := by
  rw [length_monomials_succ P _ (by simp) (by simp) (by simp)]
  have hN : ((P : ℤ) + 1).toNat = P + 1 := by omega
  have h1 : ((0 : ℤ) + 1).toNat = 1 := by decide
  simp only [hN, h1, Finset.sum_range_one, Nat.add_zero]
  have inner : ∀ n : ℕ, ∑ m ∈ Finset.range (P + 1), (if n + m ≤ P then 1 else 0)
      = P + 1 - n := by
    intro n
    rw [count_le n P (P + 1)]; omega
  simp only [inner]
  exact two_mul_sum_sub (P + 1) (P + 1) (le_refl _)

/-- Conversion to `label` of a scalar that is an integer. -/
theorem toLabel_intCast (z : ℤ) : toLabel (z : ℚ) = z := by
  unfold toLabel
  split <;> simp

/-- For a three-dimensional mesh and a non-negative order, `nDvt_` is the number of entries
written for `dim = (P, P, P)`. -/
theorem nDvt_3D (P : ℕ) :
    nDvt 3 (P : ℤ) = ((monomials (P : ℤ) ((P : ℤ), (P : ℤ), (P : ℤ))).length : ℤ) := by
  have hq : (((P : ℤ) : ℚ) + 1) * (((P : ℤ) : ℚ) + 2) * (((P : ℤ) : ℚ) + 3)
      = 6 * ((((monomials (P : ℤ) ((P : ℤ), (P : ℤ), (P : ℤ))).length : ℤ) : ℚ) + 1) := by
    exact_mod_cast (count_3D P).symm
  unfold nDvt
  simp only [if_true]
  rw [← toLabel_intCast ((monomials (P : ℤ) ((P : ℤ), (P : ℤ), (P : ℤ))).length : ℤ)]
  congr 1
  norm_num
  push_cast at hq
  linear_combination (1 / 6 : ℚ) * hq

/-- For a mesh that is not three-dimensional and a non-negative order, `nDvt_` is the
number of entries written for `dim = (P, P, 0)`. -/
theorem nDvt_2D (P : ℕ) (d : ℤ) (hd : d ≠ 3) :
    nDvt d (P : ℤ) = ((monomials (P : ℤ) ((P : ℤ), (P : ℤ), 0)).length : ℤ) := by
  have hq : (((P : ℤ) : ℚ) + 1) * (((P : ℤ) : ℚ) + 2)
      = 2 * ((((monomials (P : ℤ) ((P : ℤ), (P : ℤ), 0)).length : ℤ) : ℚ) + 1) := by
    exact_mod_cast (count_2D P).symm
  unfold nDvt
  simp only [if_neg hd]
  rw [← toLabel_intCast ((monomials (P : ℤ) ((P : ℤ), (P : ℤ), 0)).length : ℤ)]
  congr 1
  norm_num
  push_cast at hq
  linear_combination (1 / 2 : ℚ) * hq

/-- A list of admissible triples without duplicates is no longer than the enumeration
for larger caps. -/
theorem length_monomials_le (p : ℤ) (dim dim2 : ℤ × ℤ × ℤ)
    (h : ∀ t, admissible p dim t → admissible p dim2 t) :
    (monomials p dim).length ≤ (monomials p dim2).length := by
  rw [← List.toFinset_card_of_nodup (monomials_nodup p dim),
    ← List.toFinset_card_of_nodup (monomials_nodup p dim2)]
  apply Finset.card_le_card
  intro t ht
  rw [List.mem_toFinset, mem_monomials] at ht ⊢
  exact h t ht

/-- The number of entries written is the length of the enumeration. -/
theorem addCoeffs_snd (coeffs : ℕ → K) (p : ℤ) (dim : ℤ × ℤ × ℤ) (x : ℕ → ℕ → ℕ → K) :
    (addCoeffs coeffs p dim x).2 = (monomials p dim).length := by
  rw [addCoeffs_eq, emitList_snd]; simp

/-- An entry at or past the final `curIdx` is not touched. -/
theorem addCoeffs_fst_beyond (coeffs : ℕ → K) (p : ℤ) (dim : ℤ × ℤ × ℤ) (x : ℕ → ℕ → ℕ → K)
    (i : ℕ) (hi : (monomials p dim).length ≤ i) : (addCoeffs coeffs p dim x).1 i = coeffs i := by
  rw [addCoeffs_eq]
  exact emitList_fst_outside _ (coeffs, 0) i (by right; simpa using hi)

end flatten

/-! ## The weighted combination -/

section weighting

variable {K : Type} [LinearOrderedField K]

/-- In an ordered field, with `n ≥ 1` stencils, `dm > 0`, `10e-6 + s_i > 0` for every `i`
and a power that is positive on positive bases, the weights sum to `1` and each lies in
`[0, 1]`. -/
theorem weight_normalised_of_pow_pos (pow : K → K → K) (self : WENOCoeff K) (cellI : ℕ)
    (coeffsI : List (List K)) (hn : 1 ≤ coeffsI.length) (hdm : 0 < self.dm_)
    (hs : ∀ i, i < coeffsI.length →
      0 < 10e-6 + smoothInd (self.B_ cellI) (coeffsI.getD i []))
    (hpow : ∀ x : K, 0 < x → 0 < pow x self.p_) :
    ∑ i ∈ Finset.range coeffsI.length, weight pow self cellI coeffsI i = 1 ∧
    ∀ i, i < coeffsI.length →
      0 ≤ weight pow self cellI coeffsI i ∧ weight pow self cellI coeffsI i ≤ 1 := by
  have hg : ∀ i, i < coeffsI.length → 0 < stencilGamma pow self cellI coeffsI i :=
    fun i hi => stencilGamma_pos pow self cellI coeffsI i hdm (hpow _ (hs i hi))
  have hG := gammaSum_pos pow self cellI coeffsI hn hg
  refine ⟨weight_sum pow self cellI coeffsI (ne_of_gt hG), fun i hi => ⟨?_, ?_⟩⟩
  · exact div_nonneg (hg i hi).le hG.le
  · rw [weight, div_le_one hG, gammaSum_eq]
    exact Finset.single_le_sum (f := fun i => stencilGamma pow self cellI coeffsI i)
      (fun j hj => (hg j (Finset.mem_range.mp hj)).le) (Finset.mem_range.mpr hi)

/-- In an ordered field, when all `n ≥ 1` stencil vectors equal one vector `c`, `dm > 0`,
every regularised indicator is positive, the power is positive on positive bases and the
buffer is zero on entry, `calcWeight` returns `c`. -/
theorem calcWeight_reproduces_of_pow_pos (pow : K → K → K) (self : WENOCoeff K) (cellI : ℕ)
    (coeffsI : List (List K)) (c : List K) (hn : 1 ≤ coeffsI.length)
    (hc : ∀ x ∈ coeffsI, x = c) (hdm : 0 < self.dm_)
    (hs : ∀ i, i < coeffsI.length →
      0 < 10e-6 + smoothInd (self.B_ cellI) (coeffsI.getD i []))
    (hpow : ∀ x : K, 0 < x → 0 < pow x self.p_) :
    calcWeight pow self (List.replicate c.length 0) cellI coeffsI = c := by
  have hg : ∀ i, i < coeffsI.length → 0 < stencilGamma pow self cellI coeffsI i :=
    fun i hi => stencilGamma_pos pow self cellI coeffsI i hdm (hpow _ (hs i hi))
  have hG := gammaSum_pos pow self cellI coeffsI hn hg
  apply ext_getD
  · rw [calcWeight_length, List.length_replicate]
  · intro j hj
    have hj2 : j < (List.replicate c.length (0 : K)).length := by
      rw [List.length_replicate]; exact hj
    have h0 : (List.replicate c.length (0 : K)).getD j 0 = 0 := by
      rw [List.getD_eq_getElem?_getD]; simp [hj]
    rw [calcWeight_getD pow self _ cellI coeffsI j hj2, h0, zero_add]
    have hsum : ∑ i ∈ Finset.range coeffsI.length,
        (coeffsI.getD i []).getD j 0 * stencilGamma pow self cellI coeffsI i
        = c.getD j 0 * gammaSum pow self cellI coeffsI := by
      rw [gammaSum_eq, Finset.mul_sum]
      refine Finset.sum_congr rfl (fun i hi => ?_)
      rw [hc _ (getD_mem_of_lt coeffsI i (Finset.mem_range.mp hi))]
    rw [hsum, mul_div_assoc, div_self (ne_of_gt hG), mul_one]

/-- In an ordered field, when the `n ≥ 1` stencils all have the same smoothness indicator
`s` with `10e-6 + s > 0`, `dm > 0` and the power is positive on positive bases, the
weights are `dm/(dm + n - 1)` for the central stencil and `1/(dm + n - 1)` for every
sectorial one; with the default `dm = 1000` of the constructor the central weight is
`1000/(999 + n)`, strictly below `1` when `n ≥ 2`. -/
theorem weight_of_equal_indicators_of_pow_pos (pow : K → K → K) (self : WENOCoeff K) (cellI : ℕ)
    (coeffsI : List (List K)) (s : K) (hn : 1 ≤ coeffsI.length) (hdm : 0 < self.dm_)
    (hs : ∀ i, i < coeffsI.length → smoothInd (self.B_ cellI) (coeffsI.getD i []) = s)
    (hpos : 0 < 10e-6 + s) (hpow : ∀ x : K, 0 < x → 0 < pow x self.p_) :
    weight pow self cellI coeffsI 0 = self.dm_ / (self.dm_ + (coeffsI.length : K) - 1) ∧
    (∀ i, 1 ≤ i → i < coeffsI.length →
      weight pow self cellI coeffsI i = 1 / (self.dm_ + (coeffsI.length : K) - 1)) ∧
    (self.dm_ = dmOrDefault none →
      weight pow self cellI coeffsI 0 = 1000 / (999 + (coeffsI.length : K)) ∧
      (2 ≤ coeffsI.length → weight pow self cellI coeffsI 0 < 1)) := by
  have hw : pow (10e-6 + s) self.p_ ≠ 0 := ne_of_gt (hpow _ hpos)
  have hnK : (1 : K) ≤ (coeffsI.length : K) := by exact_mod_cast hn
  have hd : self.dm_ + (coeffsI.length : K) - 1 ≠ 0 := by
    apply ne_of_gt; linarith
  have h0 : weight pow self cellI coeffsI 0
      = self.dm_ / (self.dm_ + (coeffsI.length : K) - 1) := by
    unfold weight stencilGamma gammaOf
    rw [gammaSum_of_equal pow self cellI coeffsI s hn hs, hs 0 (by omega), if_pos rfl]
    field_simp
  refine ⟨h0, ?_, ?_⟩
  · intro i hi1 hi
    unfold weight stencilGamma gammaOf
    rw [gammaSum_of_equal pow self cellI coeffsI s hn hs, hs i hi, if_neg (by omega)]
    field_simp
  · intro hdflt
    have h1000 : self.dm_ = 1000 := by rw [hdflt]; norm_num [dmOrDefault]
    have h1 : weight pow self cellI coeffsI 0 = 1000 / (999 + (coeffsI.length : K)) := by
      rw [h0, h1000]; congr 1; ring
    refine ⟨h1, fun h2 => ?_⟩
    have h2K : (2 : K) ≤ (coeffsI.length : K) := by exact_mod_cast h2
    rw [h1, div_lt_one (by linarith)]
    linarith

end weighting

/-! ## The flattening order -/

section basis

variable {K : Type}

/-- C5. `addCoeffs` flattens in the fixed nested order: the triples at which it writes are
exactly the admissible ones (`0 ≤ n ≤ dx`, `0 ≤ m ≤ dy`, `0 ≤ l ≤ dz`,
`0 < n + m + l ≤ p`), listed in strictly increasing lexicographic order of `(n, m, l)`,
hence each once; entry `i` of `coeffs` receives `x[n][m][l]` at the `i`-th such triple,
no other entry is touched, and the number of entries written is the number of admissible
triples. -/
theorem addCoeffs_order (coeffs : ℕ → K) (polOrder : ℤ) (dim : ℤ × ℤ × ℤ)
    (x : ℕ → ℕ → ℕ → K) :
    (∀ t, t ∈ monomials polOrder dim ↔ admissible polOrder dim t) ∧
    (monomials polOrder dim).Pairwise lexLt ∧
    (monomials polOrder dim).Nodup ∧
    (addCoeffs coeffs polOrder dim x).2 = (monomials polOrder dim).length ∧
    (∀ i (h : i < (monomials polOrder dim).length),
      (addCoeffs coeffs polOrder dim x).1 i
        = x ((monomials polOrder dim).get ⟨i, h⟩).1 ((monomials polOrder dim).get ⟨i, h⟩).2.1
            ((monomials polOrder dim).get ⟨i, h⟩).2.2) ∧
    (∀ i, (monomials polOrder dim).length ≤ i →
      (addCoeffs coeffs polOrder dim x).1 i = coeffs i) ∧
    (∀ S : Finset (ℕ × ℕ × ℕ), (∀ t, t ∈ S ↔ admissible polOrder dim t) →
      (addCoeffs coeffs polOrder dim x).2 = S.card) := by
  have hlen : (addCoeffs coeffs polOrder dim x).2 = (monomials polOrder dim).length := by
    rw [addCoeffs_eq, emitList_snd]; simp
  refine ⟨mem_monomials polOrder dim, monomials_pairwise polOrder dim,
    monomials_nodup polOrder dim, hlen, ?_, ?_, ?_⟩
  · intro i h
    rw [addCoeffs_eq]
    have hi : i < ((monomials polOrder dim).map fun t => x t.1 t.2.1 t.2.2).length := by
      simpa using h
    have := emitList_fst_written _ (coeffs, 0) i hi
    simp only [Nat.zero_add] at this
    rw [this]
    simp
  · intro i hi
    rw [addCoeffs_eq]
    exact emitList_fst_outside _ (coeffs, 0) i (by right; simpa using hi)
  · intro S hS
    rw [hlen, ← List.toFinset_card_of_nodup (monomials_nodup polOrder dim)]
    congr 1
    ext t
    rw [List.mem_toFinset, mem_monomials, hS]

/-- Witness for `addCoeffs_order`: order two in the plane; the second entry written is
`x[1][0][0]`. -/
theorem addCoeffs_order_witness :
    (addCoeffs (fun _ => (0 : ℚ)) 1 (1, 1, 0) fun n m l => 100 * n + 10 * m + l).1 1
      = 100 * ((1 : ℕ) : ℚ) + 10 * ((0 : ℕ) : ℚ) + ((0 : ℕ) : ℚ) :=
  (addCoeffs_order (fun _ => (0 : ℚ)) 1 (1, 1, 0) fun n m l => 100 * n + 10 * m + l).2.2.2.2.1
    1 (by decide)

/-- C6. Flatten and unflatten are mutual inverses: unflattening the vector written by
`addCoeffs` gives back `x[n][m][l]` at every admissible `(n, m, l)`, and flattening the
unflattening of a vector whose length is the number of admissible multi-indices gives
back that vector. -/
theorem flatten_unflatten [Zero K] (coeffs : ℕ → K) (polOrder : ℤ) (dim : ℤ × ℤ × ℤ) :
    (∀ (x : ℕ → ℕ → ℕ → K) (n m l : ℕ), admissible polOrder dim (n, m, l) →
      unflatten (written (addCoeffs coeffs polOrder dim x)) polOrder dim n m l = x n m l) ∧
    (∀ v : List K, v.length = (monomials polOrder dim).length →
      written (addCoeffs coeffs polOrder dim (unflatten v polOrder dim)) = v) := by
  constructor
  · intro x n m l hadm
    have hmem : (n, m, l) ∈ monomials polOrder dim := (mem_monomials _ _ _).mpr hadm
    have hidx := position_lt _ _ hmem
    have hget := get_position _ _ hidx
    unfold unflatten
    rw [if_pos hmem, written_addCoeffs]
    rw [List.getD_eq_getElem _ _ (by simpa using hidx)]
    simp only [List.getElem_map]
    rw [List.get_eq_getElem] at hget
    rw [hget]
  · intro v hv
    rw [written_addCoeffs]
    apply List.ext_getElem
    · simpa using hv.symm
    · intro i h1 h2
      have hi : i < (monomials polOrder dim).length := by simpa using h1
      have hmem : (monomials polOrder dim)[i] ∈ monomials polOrder dim :=
        List.getElem_mem hi
      have hpos := position_get _ (monomials_nodup polOrder dim) i hi
      rw [List.get_eq_getElem] at hpos
      simp only [List.getElem_map]
      show unflatten v polOrder dim (monomials polOrder dim)[i].1
        (monomials polOrder dim)[i].2.1 (monomials polOrder dim)[i].2.2 = v[i]
      unfold unflatten
      rw [if_pos hmem, hpos, List.getD_eq_getElem v 0 h2]

/-- Witness for `flatten_unflatten`: order two in the plane, at the multi-index
`(1, 1, 0)`. -/
theorem flatten_unflatten_witness :
    unflatten (written (addCoeffs (fun _ => (0 : ℚ)) 2 (2, 2, 0)
        fun n m l => 100 * n + 10 * m + l)) 2 (2, 2, 0) 1 1 0
      = 100 * ((1 : ℕ) : ℚ) + 10 * ((1 : ℕ) : ℚ) + ((0 : ℕ) : ℚ) :=
  (flatten_unflatten (fun _ => (0 : ℚ)) 2 (2, 2, 0)).1
    (fun n m l => 100 * n + 10 * m + l) 1 1 0 (by decide)

/-- C7. The coefficient count set by the constructor is the number of monomials of total
degree in `[1, polOrder]`: for `p ≥ 1`, `(p+1)(p+2)(p+3)` is divisible by `6` and, for a
three-dimensional mesh, `nDvt_ = (p+1)(p+2)(p+3)/6 - 1` is the number of entries
`addCoeffs` writes for `dim = (p, p, p)`; `(p+1)(p+2)` is even and, otherwise,
`nDvt_ = (p+1)(p+2)/2 - 1` is the number of entries `addCoeffs` writes for
`dim = (p, p, 0)`. -/
theorem nDvt_count (coeffs : ℕ → K) (x : ℕ → ℕ → ℕ → K) (p : ℤ) (hp : 1 ≤ p) :
    (6 ∣ (p + 1) * (p + 2) * (p + 3)) ∧
    nDvt 3 p = (p + 1) * (p + 2) * (p + 3) / 6 - 1 ∧
    ((addCoeffs coeffs p (p, p, p) x).2 : ℤ) = nDvt 3 p ∧
    (2 ∣ (p + 1) * (p + 2)) ∧
    (∀ d : ℤ, d ≠ 3 → nDvt d p = (p + 1) * (p + 2) / 2 - 1) ∧
    (∀ d : ℤ, d ≠ 3 → ((addCoeffs coeffs p (p, p, 0) x).2 : ℤ) = nDvt d p) := by
  obtain ⟨P, rfl⟩ : ∃ P : ℕ, p = (P : ℤ) := ⟨p.toNat, by omega⟩
  have h3 := count_3D P
  have h2 := count_2D P
  have h3z : ((P : ℤ) + 1) * ((P : ℤ) + 2) * ((P : ℤ) + 3)
      = 6 * (((monomials (P : ℤ) ((P : ℤ), (P : ℤ), (P : ℤ))).length : ℤ) + 1) := by
    exact_mod_cast h3.symm
  have h2z : ((P : ℤ) + 1) * ((P : ℤ) + 2)
      = 2 * (((monomials (P : ℤ) ((P : ℤ), (P : ℤ), 0)).length : ℤ) + 1) := by
    exact_mod_cast h2.symm
  have hlen3 : (addCoeffs coeffs (P : ℤ) ((P : ℤ), (P : ℤ), (P : ℤ)) x).2
      = (monomials (P : ℤ) ((P : ℤ), (P : ℤ), (P : ℤ))).length := by
    rw [addCoeffs_eq, emitList_snd]; simp
  have hlen2 : (addCoeffs coeffs (P : ℤ) ((P : ℤ), (P : ℤ), 0) x).2
      = (monomials (P : ℤ) ((P : ℤ), (P : ℤ), 0)).length := by
    rw [addCoeffs_eq, emitList_snd]; simp
  have hn3 : nDvt 3 (P : ℤ) = ((monomials (P : ℤ) ((P : ℤ), (P : ℤ), (P : ℤ))).length : ℤ) := by
    unfold nDvt
    simp only [if_true]
    rw [← toLabel_intCast ((monomials (P : ℤ) ((P : ℤ), (P : ℤ), (P : ℤ))).length : ℤ)]
    congr 1
    have hq : (((P : ℤ) : ℚ) + 1) * (((P : ℤ) : ℚ) + 2) * (((P : ℤ) : ℚ) + 3)
        = 6 * ((((monomials (P : ℤ) ((P : ℤ), (P : ℤ), (P : ℤ))).length : ℤ) : ℚ) + 1) := by
      exact_mod_cast h3z
    norm_num
    push_cast at hq
    linear_combination (1 / 6 : ℚ) * hq
  have hn2 : ∀ d : ℤ, d ≠ 3 →
      nDvt d (P : ℤ) = ((monomials (P : ℤ) ((P : ℤ), (P : ℤ), 0)).length : ℤ) := by
    intro d hd
    unfold nDvt
    simp only [if_neg hd]
    rw [← toLabel_intCast ((monomials (P : ℤ) ((P : ℤ), (P : ℤ), 0)).length : ℤ)]
    congr 1
    have hq : (((P : ℤ) : ℚ) + 1) * (((P : ℤ) : ℚ) + 2)
        = 2 * ((((monomials (P : ℤ) ((P : ℤ), (P : ℤ), 0)).length : ℤ) : ℚ) + 1) := by
      exact_mod_cast h2z
    norm_num
    push_cast at hq
    linear_combination (1 / 2 : ℚ) * hq
  refine ⟨⟨_, h3z⟩, ?_, ?_, ⟨_, h2z⟩, ?_, ?_⟩
  · rw [hn3, h3z, Int.mul_ediv_cancel_left _ (by norm_num : (6 : ℤ) ≠ 0)]; ring
  · rw [hn3, hlen3]
  · intro d hd
    rw [hn2 d hd, h2z, Int.mul_ediv_cancel_left _ (by norm_num : (2 : ℤ) ≠ 0)]; ring
  · intro d hd
    rw [hn2 d hd, hlen2]

/-- Witness for `nDvt_count`: order two, where `nDvt_ = 9` in three dimensions. -/
theorem nDvt_count_witness :
    ((addCoeffs (fun _ => (0 : ℚ)) 2 (2, 2, 2) fun n m l => 100 * n + 10 * m + l).2 : ℤ)
      = nDvt 3 2 :=
  (nDvt_count (fun _ => (0 : ℚ)) (fun n m l => 100 * n + 10 * m + l) 2 (by decide)).2.2.1

/-- C14. `addCoeffs` never writes past a buffer of `nDvt_` entries: for `p ≥ 1` and every
dimensionality triple, caps above `p` included, the number of entries written is at most
`(p+1)(p+2)(p+3)/6 - 1`, the `nDvt_` of a three-dimensional mesh, and when `dz = 0` at
most `(p+1)(p+2)/2 - 1`, the `nDvt_` of the other meshes; every written index (every
index below the final `curIdx`) is strictly below `nDvt_`, and no entry at or past `nDvt_`
is touched. -/
theorem addCoeffs_within_nDvt (coeffs : ℕ → K) (x : ℕ → ℕ → ℕ → K) (p : ℤ) (hp : 1 ≤ p)
    (dim : ℤ × ℤ × ℤ) :
    (((addCoeffs coeffs p dim x).2 : ℤ) ≤ (p + 1) * (p + 2) * (p + 3) / 6 - 1 ∧
      ((addCoeffs coeffs p dim x).2 : ℤ) ≤ nDvt 3 p ∧
      (∀ i, i < (addCoeffs coeffs p dim x).2 → (i : ℤ) < nDvt 3 p) ∧
      (∀ i : ℕ, nDvt 3 p ≤ (i : ℤ) → (addCoeffs coeffs p dim x).1 i = coeffs i)) ∧
    (dim.2.2 = 0 →
      ((addCoeffs coeffs p dim x).2 : ℤ) ≤ (p + 1) * (p + 2) / 2 - 1 ∧
      ∀ d : ℤ, d ≠ 3 →
        ((addCoeffs coeffs p dim x).2 : ℤ) ≤ nDvt d p ∧
        (∀ i, i < (addCoeffs coeffs p dim x).2 → (i : ℤ) < nDvt d p) ∧
        (∀ i : ℕ, nDvt d p ≤ (i : ℤ) → (addCoeffs coeffs p dim x).1 i = coeffs i)) := by
  obtain ⟨P, rfl⟩ : ∃ P : ℕ, p = (P : ℤ) := ⟨p.toNat, by omega⟩
  have hlen := addCoeffs_snd coeffs (P : ℤ) dim x
  constructor
  · have hle : (monomials (P : ℤ) dim).length
        ≤ (monomials (P : ℤ) ((P : ℤ), (P : ℤ), (P : ℤ))).length := by
      apply length_monomials_le
      intro t ht
      unfold admissible at ht ⊢
      simp only
      omega
    have hleZ : ((addCoeffs coeffs (P : ℤ) dim x).2 : ℤ) ≤ nDvt 3 (P : ℤ) := by
      rw [nDvt_3D, hlen]; exact_mod_cast hle
    have h3z : ((P : ℤ) + 1) * ((P : ℤ) + 2) * ((P : ℤ) + 3)
        = 6 * (((monomials (P : ℤ) ((P : ℤ), (P : ℤ), (P : ℤ))).length : ℤ) + 1) := by
      exact_mod_cast (count_3D P).symm
    refine ⟨?_, hleZ, fun i hi => ?_, fun i hi => ?_⟩
    · rw [h3z, Int.mul_ediv_cancel_left _ (by norm_num : (6 : ℤ) ≠ 0), hlen]
      have : ((monomials (P : ℤ) dim).length : ℤ)
          ≤ ((monomials (P : ℤ) ((P : ℤ), (P : ℤ), (P : ℤ))).length : ℤ) := by
        exact_mod_cast hle
      linarith
    · have : (i : ℤ) < ((addCoeffs coeffs (P : ℤ) dim x).2 : ℤ) := by exact_mod_cast hi
      linarith
    · apply addCoeffs_fst_beyond
      rw [← hlen]
      have : ((addCoeffs coeffs (P : ℤ) dim x).2 : ℤ) ≤ (i : ℤ) := le_trans hleZ hi
      exact_mod_cast this
  · intro hdz
    have hle : (monomials (P : ℤ) dim).length
        ≤ (monomials (P : ℤ) ((P : ℤ), (P : ℤ), 0)).length := by
      apply length_monomials_le
      intro t ht
      unfold admissible at ht ⊢
      simp only
      omega
    have h2z : ((P : ℤ) + 1) * ((P : ℤ) + 2)
        = 2 * (((monomials (P : ℤ) ((P : ℤ), (P : ℤ), 0)).length : ℤ) + 1) := by
      exact_mod_cast (count_2D P).symm
    have hleN : ((monomials (P : ℤ) dim).length : ℤ)
        ≤ ((monomials (P : ℤ) ((P : ℤ), (P : ℤ), 0)).length : ℤ) := by
      exact_mod_cast hle
    refine ⟨?_, fun d hd => ?_⟩
    · rw [h2z, Int.mul_ediv_cancel_left _ (by norm_num : (2 : ℤ) ≠ 0), hlen]
      linarith
    · have hleZ : ((addCoeffs coeffs (P : ℤ) dim x).2 : ℤ) ≤ nDvt d (P : ℤ) := by
        rw [nDvt_2D P d hd, hlen]; exact hleN
      refine ⟨hleZ, fun i hi => ?_, fun i hi => ?_⟩
      · have : (i : ℤ) < ((addCoeffs coeffs (P : ℤ) dim x).2 : ℤ) := by exact_mod_cast hi
        linarith
      · apply addCoeffs_fst_beyond
        rw [← hlen]
        have : ((addCoeffs coeffs (P : ℤ) dim x).2 : ℤ) ≤ (i : ℤ) := le_trans hleZ hi
        exact_mod_cast this

/-- Witness for `addCoeffs_within_nDvt`: order two with caps `(5, 1, 7)` above the order;
the eight entries written stay within `nDvt_ = 9`. -/
theorem addCoeffs_within_nDvt_witness :
    ((addCoeffs (fun _ => (0 : ℚ)) 2 (5, 1, 7) fun n m l => 100 * n + 10 * m + l).2 : ℤ)
      ≤ nDvt 3 2 :=
  (addCoeffs_within_nDvt (fun _ => (0 : ℚ)) (fun n m l => 100 * n + 10 * m + l) 2
    (by decide) (5, 1, 7)).1.2.1

end basis

/-! ## Order and convexity of the weights -/

section order

variable {K : Type} [LinearOrderedField K]

/-- In an ordered field, for a cell with `dm > 0` and `10e-6 + s_k > 0` for every stencil
`k`, and a power that is positive and strictly increasing on positive bases at the
exponent `p > 0`, a stencil with a strictly larger smoothness indicator has a strictly
smaller weight, among sectorial stencils and, when `dm ≥ 1`, against the central one. -/
theorem weight_strict_anti_of_pow_mono (pow : K → K → K) (self : WENOCoeff K) (cellI : ℕ)
    (coeffsI : List (List K)) (hdm : 0 < self.dm_)
    (hs : ∀ k, k < coeffsI.length →
      0 < 10e-6 + smoothInd (self.B_ cellI) (coeffsI.getD k []))
    (hpow : ∀ x : K, 0 < x → 0 < pow x self.p_) (hp : 0 < self.p_)
    (hmono : 0 < self.p_ → ∀ x y : K, 0 < x → x < y → pow x self.p_ < pow y self.p_) :
    (∀ i j, 1 ≤ i → 1 ≤ j → i < coeffsI.length → j < coeffsI.length →
      0 ≤ smoothInd (self.B_ cellI) (coeffsI.getD j []) →
      smoothInd (self.B_ cellI) (coeffsI.getD j [])
        < smoothInd (self.B_ cellI) (coeffsI.getD i []) →
      weight pow self cellI coeffsI i < weight pow self cellI coeffsI j) ∧
    (∀ i, 1 ≤ i → i < coeffsI.length →
      0 ≤ smoothInd (self.B_ cellI) (coeffsI.getD 0 []) →
      smoothInd (self.B_ cellI) (coeffsI.getD 0 [])
        < smoothInd (self.B_ cellI) (coeffsI.getD i []) →
      1 ≤ self.dm_ →
      weight pow self cellI coeffsI i < weight pow self cellI coeffsI 0) := by
  have hg : ∀ i, i < coeffsI.length → 0 < stencilGamma pow self cellI coeffsI i :=
    fun i hi => stencilGamma_pos pow self cellI coeffsI i hdm (hpow _ (hs i hi))
  have heps : (0 : K) < 10e-6 := by norm_num
  constructor
  · intro i j hi1 hj1 hi hj hsj hlt
    have hG := gammaSum_pos pow self cellI coeffsI (by omega) hg
    unfold weight
    apply div_lt_div_of_pos_right _ hG
    unfold stencilGamma gammaOf
    rw [if_neg (by omega), if_neg (by omega)]
    exact one_div_lt_one_div_of_lt (hpow _ (hs j hj))
      (hmono hp _ _ (hs j hj) (by linarith))
  · intro i hi1 hi hs0 hlt hdm1
    have hG := gammaSum_pos pow self cellI coeffsI (by omega) hg
    unfold weight
    apply div_lt_div_of_pos_right _ hG
    unfold stencilGamma gammaOf
    rw [if_neg (by omega), if_pos rfl]
    have h0 := hpow _ (hs 0 (by omega))
    calc 1 / pow (10e-6 + smoothInd (self.B_ cellI) (coeffsI.getD i [])) self.p_
        < 1 / pow (10e-6 + smoothInd (self.B_ cellI) (coeffsI.getD 0 [])) self.p_ :=
          one_div_lt_one_div_of_lt h0 (hmono hp _ _ (hs 0 (by omega)) (by linarith))
      _ ≤ self.dm_ / pow (10e-6 + smoothInd (self.B_ cellI) (coeffsI.getD 0 [])) self.p_ :=
          div_le_div_of_nonneg_right hdm1 (le_of_lt h0)

end order

/-! ## Exclusion, accumulation and empty stencils -/

section frame

variable {K : Type} [LinearOrderedField K]

/-- C12. Exclusion correctness: for every stencil list, every initial buffer and every
sectorial index `j ≥ 1`, scalar `calcWeight` on the list with stencil `j` left out returns
what the run on the full list returns when the `gamma` of stencil `j` is forced to exactly
zero in the numerator `∑ gamma_i * c_i[k]` and in the denominator. -/
theorem exclusion_eq_forced (pow : K → K → K) (self : WENOCoeff K) (cw : List K) (cellI : ℕ)
    (coeffsI : List (List K)) (j : ℕ) (hj : 1 ≤ j) :
    calcWeight pow self cw cellI (coeffsI.eraseIdx j)
      = calcWeightForced pow self j cw cellI coeffsI := by
  have hF : ∀ (i : ℕ) (c : List K),
      gammaOf pow self (i + 1) (smoothInd (self.B_ cellI) c)
        = gammaOf pow self 1 (smoothInd (self.B_ cellI) c) := by
    intro i c; unfold gammaOf; rw [if_neg (by omega), if_neg (by omega)]
  apply ext_getD
  · rw [calcWeight_length, calcWeightForced_length]
  · intro k hk
    rw [calcWeightForced_length] at hk
    rw [calcWeight_getD pow self cw cellI _ k hk,
      calcWeightForced_getD pow self j cw cellI coeffsI k hk, gammaSum_eq]
    simp only [stencilGamma, mul_ite, mul_zero]
    rw [sum_eraseIdx_sectorial
        (fun i c => gammaOf pow self i (smoothInd (self.B_ cellI) c)) [] coeffsI j hj hF,
      sum_eraseIdx_sectorial
        (fun i c => c.getD k 0 * gammaOf pow self i (smoothInd (self.B_ cellI) c)) []
        coeffsI j hj (fun i c => by simp only [hF])]

/-- Witness for `exclusion_eq_forced`: the second of three stencils is left out. -/
theorem exclusion_eq_forced_witness :
    calcWeight powQ ⟨4, 1000, fun _ P Q => if P = Q then 1 else 0⟩ [0, 0] 0
        ([[1, 2], [3, 4], [5, 6]].eraseIdx 1)
      = calcWeightForced powQ ⟨4, 1000, fun _ P Q => if P = Q then 1 else 0⟩ 1 [0, 0] 0
          [[1, 2], [3, 4], [5, 6]] :=
  exclusion_eq_forced powQ ⟨4, 1000, fun _ P Q => if P = Q then 1 else 0⟩ [0, 0] 0
    [[1, 2], [3, 4], [5, 6]] 1 (by decide)

/-- In an ordered field, for `n ≥ 1` stencils, `dm > 0`, `10e-6 + s_i > 0` for every `i`, a
power that is positive on positive bases and a zero buffer, every blended coefficient
lies between the smallest and the largest of the stencils' coefficients at that index. -/
theorem calcWeight_convex_of_pow_pos (pow : K → K → K) (self : WENOCoeff K) (cellI : ℕ)
    (coeffsI : List (List K)) (k : ℕ) (hn : 1 ≤ coeffsI.length)
    (hk : ∀ c ∈ coeffsI, c.length = k) (hdm : 0 < self.dm_)
    (hs : ∀ i, i < coeffsI.length →
      0 < 10e-6 + smoothInd (self.B_ cellI) (coeffsI.getD i []))
    (hpow : ∀ x : K, 0 < x → 0 < pow x self.p_) :
    ∀ j, j < k →
      (Finset.range coeffsI.length).inf' (Finset.nonempty_range_iff.mpr (Nat.ne_of_gt hn))
          (fun i => (coeffsI.getD i []).getD j 0)
        ≤ (calcWeight pow self (List.replicate k 0) cellI coeffsI).getD j 0
      ∧ (calcWeight pow self (List.replicate k 0) cellI coeffsI).getD j 0
        ≤ (Finset.range coeffsI.length).sup' (Finset.nonempty_range_iff.mpr (Nat.ne_of_gt hn))
          (fun i => (coeffsI.getD i []).getD j 0) := by
  have _hk := hk
  intro j hj
  have hg : ∀ i, i < coeffsI.length → 0 < stencilGamma pow self cellI coeffsI i :=
    fun i hi => stencilGamma_pos pow self cellI coeffsI i hdm (hpow _ (hs i hi))
  have hG := gammaSum_pos pow self cellI coeffsI hn hg
  have hj2 : j < (List.replicate k (0 : K)).length := by rw [List.length_replicate]; exact hj
  have h0 : (List.replicate k (0 : K)).getD j 0 = 0 := by
    rw [List.getD_eq_getElem?_getD]; simp [hj]
  rw [calcWeight_getD pow self _ cellI coeffsI j hj2, h0, zero_add]
  constructor
  · rw [le_div_iff₀ hG, gammaSum_eq, Finset.mul_sum]
    refine Finset.sum_le_sum (fun i hi => ?_)
    exact mul_le_mul_of_nonneg_right
      (Finset.inf'_le (fun i => (coeffsI.getD i []).getD j 0) hi)
      (le_of_lt (hg i (Finset.mem_range.mp hi)))
  · rw [div_le_iff₀ hG, gammaSum_eq, Finset.mul_sum]
    refine Finset.sum_le_sum (fun i hi => ?_)
    exact mul_le_mul_of_nonneg_right
      (Finset.le_sup' (fun i => (coeffsI.getD i []).getD j 0) hi)
      (le_of_lt (hg i (Finset.mem_range.mp hi)))

/-- In an ordered field, a stencil whose coefficient vector is empty or all zero has
indicator `0` and adds `1/(10e-6)^p` to `gammaSum` at an index `≥ 1` (`dm/(10e-6)^p` at
index `0`); appending such a stencil to a list with positive `gammaSum` `G` multiplies
every entry of the result by `G / (G + 1/(10e-6)^p)`, a factor strictly between `0` and
`1` when `(10e-6)^p > 0`. -/
theorem empty_stencil_contributes_of_field (pow : K → K → K) (self : WENOCoeff K) (cw : List K)
    (cellI : ℕ) (coeffsI : List (List K)) (z : List K) (hz : ∀ v ∈ z, v = 0)
    (hG : 0 < gammaSum pow self cellI coeffsI) :
    smoothInd (self.B_ cellI) z = 0 ∧
    (∀ i, (∀ v ∈ coeffsI.getD i [], v = 0) →
      stencilGamma pow self cellI coeffsI i
        = if i = 0 then self.dm_ / pow 10e-6 self.p_ else 1 / pow 10e-6 self.p_) ∧
    gammaSum pow self cellI [z] = self.dm_ / pow 10e-6 self.p_ ∧
    gammaSum pow self cellI (coeffsI ++ [z])
      = gammaSum pow self cellI coeffsI + 1 / pow 10e-6 self.p_ ∧
    (∀ k, k < cw.length →
      (calcWeight pow self cw cellI (coeffsI ++ [z])).getD k 0
        = (calcWeight pow self cw cellI coeffsI).getD k 0
          * (gammaSum pow self cellI coeffsI
              / (gammaSum pow self cellI coeffsI + 1 / pow 10e-6 self.p_))) ∧
    (0 < pow 10e-6 self.p_ →
      0 < gammaSum pow self cellI coeffsI
            / (gammaSum pow self cellI coeffsI + 1 / pow 10e-6 self.p_) ∧
      gammaSum pow self cellI coeffsI
            / (gammaSum pow self cellI coeffsI + 1 / pow 10e-6 self.p_) < 1) := by
  have hne : coeffsI.length ≠ 0 := by
    intro h0
    have : gammaSum pow self cellI coeffsI = 0 := by rw [gammaSum_eq, h0]; simp
    rw [this] at hG; exact lt_irrefl _ hG
  have hsum : gammaSum pow self cellI (coeffsI ++ [z])
      = gammaSum pow self cellI coeffsI + 1 / pow 10e-6 self.p_ := by
    rw [gammaSum_eq, gammaSum_eq, List.length_append, List.length_singleton,
      Finset.sum_range_succ, stencilGamma_append_zero pow self cellI coeffsI z hz, if_neg hne]
    congr 1
    exact Finset.sum_congr rfl (fun i hi =>
      stencilGamma_append_left pow self cellI coeffsI z i (Finset.mem_range.mp hi))
  refine ⟨smoothInd_of_all_zero _ z hz, fun i hi => ?_, ?_, hsum, fun k hk => ?_,
    fun hp => ?_⟩
  · unfold stencilGamma gammaOf
    rw [smoothInd_of_all_zero _ _ hi, add_zero]
  · have h := stencilGamma_append_zero pow self cellI [] z hz
    rw [gammaSum_eq]
    simpa using h
  · rw [calcWeight_getD pow self cw cellI _ k hk, calcWeight_getD pow self cw cellI _ k hk,
      hsum, List.length_append, List.length_singleton, Finset.sum_range_succ]
    have hlast : ((coeffsI ++ [z]).getD coeffsI.length []).getD k 0 = 0 := by
      rw [List.getD_append_right coeffsI [z] [] coeffsI.length (le_refl _)]
      simp only [Nat.sub_self, List.getD_cons_zero]
      exact getD_of_all_zero z hz k
    have hfirst : ∑ i ∈ Finset.range coeffsI.length,
        ((coeffsI ++ [z]).getD i []).getD k 0 * stencilGamma pow self cellI (coeffsI ++ [z]) i
        = ∑ i ∈ Finset.range coeffsI.length,
          (coeffsI.getD i []).getD k 0 * stencilGamma pow self cellI coeffsI i := by
      refine Finset.sum_congr rfl (fun i hi => ?_)
      rw [stencilGamma_append_left pow self cellI coeffsI z i (Finset.mem_range.mp hi),
        List.getD_append coeffsI [z] [] i (Finset.mem_range.mp hi)]
    rw [hlast, hfirst, zero_mul, add_zero]
    by_cases hD : gammaSum pow self cellI coeffsI + 1 / pow 10e-6 self.p_ = 0
    · rw [hD]; simp
    · field_simp
  · have hpos : 0 < 1 / pow 10e-6 self.p_ := div_pos one_pos hp
    refine ⟨div_pos hG (by linarith), ?_⟩
    rw [div_lt_one (by linarith)]
    linarith

end frame

/-! ## Non-scalar fields -/

section tensors

variable {K : Type} [LinearOrderedField K]

/-- C13. Tensor decomposition equivalence: for a `vector`, `tensor`, `symmTensor` or
`sphericalTensor` field, the non-scalar path (the `calcWeight` overloads, which forward
to `calcWeightComp`) keeps the length of the buffer and produces, for each component of
the type, the blended coefficients that the scalar `calcWeight` produces on that
component of the buffer and of the coefficient lists, hence with the weights of that
scalar run. -/
theorem calcWeightNonScalar_component (fieldType : FieldType) (pow : K → K → K)
    (self : WENOCoeff K) (cw : List (ℕ → K)) (cellI : ℕ) (coeffsI : List (List (ℕ → K))) :
    (calcWeightNonScalar fieldType pow self cw cellI coeffsI).length = cw.length ∧
    ∀ compI, compI < fieldType.nComponents →
      component compI (calcWeightNonScalar fieldType pow self cw cellI coeffsI)
        = calcWeight pow self (component compI cw) cellI (coeffsI.map (component compI)) := by
  have h := calcWeightComp_upto pow self cw cellI coeffsI fieldType.nComponents
  refine ⟨h.1, fun compI hc => ?_⟩
  have h2 := h.2 compI
  rw [if_pos hc] at h2
  exact h2

/-- Witness for `calcWeightNonScalar_component`: a vector field, second component. -/
theorem calcWeightNonScalar_component_witness :
    component 1 (calcWeightNonScalar FieldType.vector powQ ⟨4, 1000, fun _ _ _ => 0⟩
        [fun _ => 0] 0 [[fun c : ℕ => (c : ℚ)], [fun c : ℕ => 2 * (c : ℚ)]])
      = calcWeight powQ ⟨4, 1000, fun _ _ _ => 0⟩ (component 1 [fun _ => 0]) 0
          ([[fun c : ℕ => (c : ℚ)], [fun c : ℕ => 2 * (c : ℚ)]].map (component 1)) :=
  (calcWeightNonScalar_component FieldType.vector powQ ⟨4, 1000, fun _ _ _ => 0⟩
    [fun _ => 0] 0 [[fun c : ℕ => (c : ℚ)], [fun c : ℕ => 2 * (c : ℚ)]]).2 1 (by decide)

end tensors

/-! ## Exact arithmetic against double precision

The properties below hold when the scalars are real numbers and `pow` is the real power.
Each of them fails on doubles; the failing run is evaluated on `Dbl`, with `p_ = 1.0`,
where `pow` returns its first argument. -/

section exact

/-- Known values of double arithmetic, as a check of `Dbl`: `0.1 + 0.2` is
`0.30000000000000004` and not `0.3`; `2^53 + 1` rounds to `2^53`; the largest double
doubled overflows; half the smallest subnormal rounds to zero; `1/0` is `+∞` and `0/0` is
NaN. -/
theorem Dbl.known_values :
    (0.1 : Dbl) + 0.2 = 0.30000000000000004 ∧ (0.1 : Dbl) + 0.2 ≠ 0.3 ∧
    (9007199254740992.0 : Dbl) + 1.0 = 9007199254740992.0 ∧
    (1.7976931348623157e308 : Dbl) * 2.0 = Dbl.inf false ∧
    (4.9e-324 : Dbl) / 2.0 = 0.0 ∧
    (1.0 : Dbl) / 0.0 = Dbl.inf false ∧ (0.0 : Dbl) / 0.0 = Dbl.nan := by
  decide!

/-- C2 as stated fails on doubles. With `p = 1`, `dm = 1000`, the positive-semidefinite
oscillation matrix `u uᵀ`, `u = (1, 2, 3)`, and the stencils `[0, 0, 0]` and
`[100000.1, 150003.5, -133335.7]`, the double loop rounds the indicator of stencil `1` to
about `-2.3e-5` (the exact quadratic form is `≥ 0`), so `10e-6 + s_1 < 0`, the weight of
stencil `1` is negative and the weight of stencil `0` is above `1`. -/
theorem weight_outside_unit_interval_double :
    smoothInd (rankOneB 0) [100000.1, 150003.5, -133335.7]
      = Dbl.fin true 3436034825335603 (-67) ∧
    (10e-6 : Dbl) + smoothInd (rankOneB 0) [100000.1, 150003.5, -133335.7] < 0.0 ∧
    weight Dbl.pow ⟨1.0, 1000.0, rankOneB⟩ 0
        [[0.0, 0.0, 0.0], [100000.1, 150003.5, -133335.7]] 1
      = Dbl.fin true 6948723075566227 (-63) ∧
    weight Dbl.pow ⟨1.0, 1000.0, rankOneB⟩ 0
        [[0.0, 0.0, 0.0], [100000.1, 150003.5, -133335.7]] 1 < 0.0 ∧
    (1.0 : Dbl) < weight Dbl.pow ⟨1.0, 1000.0, rankOneB⟩ 0
        [[0.0, 0.0, 0.0], [100000.1, 150003.5, -133335.7]] 0 := by
  decide!

/-- C2, amended. In exact arithmetic (real scalars, `pow` the real power), for `n ≥ 1`
stencils, `dm > 0`, every exponent `p` and smoothness indicators with `10e-6 + s_i > 0`
for every `i`, the weights `gamma_i / ∑ gamma_j` that scalar `calcWeight` applies sum to
exactly `1` and each lies in `[0, 1]`. -/
theorem weight_normalised_exact (self : WENOCoeff ℝ) (cellI : ℕ) (coeffsI : List (List ℝ))
    (hn : 1 ≤ coeffsI.length) (hdm : 0 < self.dm_)
    (hs : ∀ i, i < coeffsI.length →
      0 < 10e-6 + smoothInd (self.B_ cellI) (coeffsI.getD i [])) :
    ∑ i ∈ Finset.range coeffsI.length, weight Real.rpow self cellI coeffsI i = 1 ∧
    ∀ i, i < coeffsI.length →
      0 ≤ weight Real.rpow self cellI coeffsI i ∧ weight Real.rpow self cellI coeffsI i ≤ 1 :=
  weight_normalised_of_pow_pos Real.rpow self cellI coeffsI hn hdm hs
    (fun _ hx => Real.rpow_pos_of_pos hx _)

/-- Witness for `weight_normalised_exact`: a central and a sectorial stencil over the
identity oscillation matrix, `p = 5/2` and `dm = 1000`. -/
theorem weight_normalised_exact_witness :
    ∑ i ∈ Finset.range 2,
      weight Real.rpow ⟨5 / 2, 1000, fun _ P Q => if P = Q then 1 else 0⟩ 0
        [[1, 2], [3, 4]] i = 1 :=
  (weight_normalised_exact ⟨5 / 2, 1000, fun _ P Q => if P = Q then 1 else 0⟩ 0
    [[1, 2], [3, 4]] (by decide) (by norm_num)
    (by
      intro i hi
      have hi2 : i < 2 := hi
      interval_cases i <;> norm_num [smoothInd_eq, Finset.sum_range_succ])).1

/-- C4 as stated fails on doubles. For the positive-semidefinite oscillation matrix
`u uᵀ`, `u = (1, 2, 3)`, and the coefficient vector `[0.1, 0.2, -(0.5/3)]` the double loop
returns about `-3.7e-17`, although the exact quadratic form is `≥ 0`; the code adds this
negative value to the regulariser as it is (the sum is below `10e-6`) and forms `gamma`
from it. -/
theorem smoothInd_negative_double :
    smoothInd (rankOneB 0) [0.1, 0.2, -(0.5 / 3.0)] = Dbl.fin true 6004799503160661 (-107) ∧
    smoothInd (rankOneB 0) [0.1, 0.2, -(0.5 / 3.0)] < 0.0 ∧
    (10e-6 : Dbl) + smoothInd (rankOneB 0) [0.1, 0.2, -(0.5 / 3.0)] < 10e-6 ∧
    stencilGamma Dbl.pow ⟨1.0, 1000.0, rankOneB⟩ 0 [[0.1, 0.2, -(0.5 / 3.0)]] 0
      = 1000.0 / ((10e-6 : Dbl) + Dbl.fin true 6004799503160661 (-107)) := by
  decide!

/-- C4, amended. In exact arithmetic the smoothness indicator is non-negative before it is
used, without any clamp: for every coefficient vector `c` and every positive-semidefinite
oscillation matrix, given as a Gram matrix `B = Aᵀ A`, the value that scalar `calcWeight`
adds to the regulariser is the sum of squares `|A c|²`, hence `≥ 0`, and the regularised
base `10e-6 + s` is positive. -/
theorem smoothInd_nonneg_exact {K : Type} [LinearOrderedField K] (self : WENOCoeff K)
    (cellI : ℕ) (coeffsI : List (List K)) (i : ℕ) (r : ℕ) (A : ℕ → ℕ → K)
    (hB : ∀ P Q, self.B_ cellI P Q = ∑ j ∈ Finset.range r, A j P * A j Q) :
    smoothInd (self.B_ cellI) (coeffsI.getD i [])
      = ∑ j ∈ Finset.range r,
          (∑ P ∈ Finset.range (coeffsI.getD i []).length,
            A j P * (coeffsI.getD i []).getD P 0) ^ 2
    ∧ 0 ≤ smoothInd (self.B_ cellI) (coeffsI.getD i [])
    ∧ 0 < 10e-6 + smoothInd (self.B_ cellI) (coeffsI.getD i []) := by
  have key : smoothInd (self.B_ cellI) (coeffsI.getD i [])
      = ∑ j ∈ Finset.range r,
          (∑ P ∈ Finset.range (coeffsI.getD i []).length,
            A j P * (coeffsI.getD i []).getD P 0) ^ 2 := by
    rw [smoothInd_eq]
    have hterm : ∀ P Q, (coeffsI.getD i []).getD P 0 * self.B_ cellI P Q
          * (coeffsI.getD i []).getD Q 0
        = ∑ j ∈ Finset.range r, (A j P * (coeffsI.getD i []).getD P 0)
            * (A j Q * (coeffsI.getD i []).getD Q 0) := by
      intro P Q
      rw [hB, Finset.mul_sum, Finset.sum_mul]
      exact Finset.sum_congr rfl (fun j _ => by ring)
    simp only [hterm]
    calc ∑ P ∈ Finset.range (coeffsI.getD i []).length,
          ∑ Q ∈ Finset.range (coeffsI.getD i []).length, ∑ j ∈ Finset.range r,
            (A j P * (coeffsI.getD i []).getD P 0) * (A j Q * (coeffsI.getD i []).getD Q 0)
        = ∑ P ∈ Finset.range (coeffsI.getD i []).length, ∑ j ∈ Finset.range r,
            ∑ Q ∈ Finset.range (coeffsI.getD i []).length,
              (A j P * (coeffsI.getD i []).getD P 0)
                * (A j Q * (coeffsI.getD i []).getD Q 0) :=
          Finset.sum_congr rfl (fun P _ => Finset.sum_comm)
      _ = ∑ j ∈ Finset.range r, ∑ P ∈ Finset.range (coeffsI.getD i []).length,
            ∑ Q ∈ Finset.range (coeffsI.getD i []).length,
              (A j P * (coeffsI.getD i []).getD P 0)
                * (A j Q * (coeffsI.getD i []).getD Q 0) := Finset.sum_comm
      _ = ∑ j ∈ Finset.range r,
            (∑ P ∈ Finset.range (coeffsI.getD i []).length,
              A j P * (coeffsI.getD i []).getD P 0) ^ 2 := by
          refine Finset.sum_congr rfl (fun j _ => ?_)
          rw [sq, Finset.sum_mul_sum]
  have hnn : 0 ≤ smoothInd (self.B_ cellI) (coeffsI.getD i []) := by
    rw [key]
    exact Finset.sum_nonneg (fun j _ => sq_nonneg _)
  have heps : (0 : K) < 10e-6 := by norm_num
  exact ⟨key, hnn, by linarith⟩

/-- Witness for `smoothInd_nonneg_exact`: the matrix `u uᵀ`, `u = (1, 2, 3)`, as the Gram
matrix of the single row `u`, and the vector `[1, 2, -1]`. -/
theorem smoothInd_nonneg_exact_witness :
    0 ≤ smoothInd ((⟨4, 1000, fun _ P Q => ((P : ℚ) + 1) * ((Q : ℚ) + 1)⟩ :
        WENOCoeff ℚ).B_ 0) (([[1, 2, -1]] : List (List ℚ)).getD 0 []) :=
  (smoothInd_nonneg_exact ⟨4, 1000, fun _ P Q => ((P : ℚ) + 1) * ((Q : ℚ) + 1)⟩ 0
    [[1, 2, -1]] 0 1 (fun _ P => (P : ℚ) + 1) (by intro P Q; simp)).2.1

/-- C8 as stated fails on doubles. With `p = 1`, `dm = 1000`, the zero oscillation matrix
and two stencils that both carry `[0.1]`, every hypothesis holds (`dm > 0`, both
regularised indicators are `10e-6 > 0`, zero buffer), and the result is one unit in the
last place below `0.1`. -/
theorem calcWeight_not_reproduced_double :
    calcWeight Dbl.pow ⟨1.0, 1000.0, zeroB⟩ [0.0] 0 [[0.1], [0.1]]
      = [Dbl.fin false 7205759403792793 (-56)] ∧
    (0.1 : Dbl) = Dbl.fin false 3602879701896397 (-55) ∧
    calcWeight Dbl.pow ⟨1.0, 1000.0, zeroB⟩ [0.0] 0 [[0.1], [0.1]] ≠ [0.1] ∧
    (calcWeight Dbl.pow ⟨1.0, 1000.0, zeroB⟩ [0.0] 0 [[0.1], [0.1]]).getD 0 0 < 0.1 := by
  decide!

/-- C8, amended. Reproduction of agreeing candidates in exact arithmetic (real scalars,
`pow` the real power): when all `n ≥ 1` stencil vectors equal one vector `c`, `dm > 0`,
`10e-6 + s_i > 0` for every `i` and the buffer is zero on entry, scalar `calcWeight`
returns exactly `c`, whatever the values of `dm`, `p` and the oscillation matrix. -/
theorem calcWeight_reproduces_exact (self : WENOCoeff ℝ) (cellI : ℕ)
    (coeffsI : List (List ℝ)) (c : List ℝ) (hn : 1 ≤ coeffsI.length)
    (hc : ∀ x ∈ coeffsI, x = c) (hdm : 0 < self.dm_)
    (hs : ∀ i, i < coeffsI.length →
      0 < 10e-6 + smoothInd (self.B_ cellI) (coeffsI.getD i [])) :
    calcWeight Real.rpow self (List.replicate c.length 0) cellI coeffsI = c :=
  calcWeight_reproduces_of_pow_pos Real.rpow self cellI coeffsI c hn hc hdm hs
    (fun _ hx => Real.rpow_pos_of_pos hx _)

/-- Witness for `calcWeight_reproduces_exact`: three stencils that all carry `[1, 2]`. -/
theorem calcWeight_reproduces_exact_witness :
    calcWeight Real.rpow ⟨4, 1000, fun _ P Q => if P = Q then 1 else 0⟩
      (List.replicate ([1, 2] : List ℝ).length 0) 0 [[1, 2], [1, 2], [1, 2]] = [1, 2] :=
  calcWeight_reproduces_exact ⟨4, 1000, fun _ P Q => if P = Q then 1 else 0⟩ 0
    [[1, 2], [1, 2], [1, 2]] [1, 2] (by decide) (by simp) (by norm_num)
    (by
      intro i hi
      have hi2 : i < 3 := hi
      interval_cases i <;> norm_num [smoothInd_eq, Finset.sum_range_succ])

/-- C9 as stated fails on doubles. With `p = 1`, `dm = 1e305 > 0`, the zero oscillation
matrix and the stencils `[1]` and `[2]`, both indicators are `0`, the central `gamma`
`dm / 10e-6` overflows to `+∞`, and the weights are NaN and `0`, whereas
`dm/(dm + n - 1)` is `1` and `1/(dm + n - 1)` is a positive double. -/
theorem weight_of_equal_indicators_double :
    smoothInd (zeroB 0) [1.0] = 0.0 ∧ smoothInd (zeroB 0) [2.0] = 0.0 ∧
    stencilGamma Dbl.pow ⟨1.0, 1e305, zeroB⟩ 0 [[1.0], [2.0]] 0 = Dbl.inf false ∧
    weight Dbl.pow ⟨1.0, 1e305, zeroB⟩ 0 [[1.0], [2.0]] 0 = Dbl.nan ∧
    weight Dbl.pow ⟨1.0, 1e305, zeroB⟩ 0 [[1.0], [2.0]] 1 = Dbl.fin false 0 0 ∧
    (1e305 : Dbl) / (1e305 + 2.0 - 1.0) = Dbl.fin false 1 0 ∧
    (1.0 : Dbl) / (1e305 + 2.0 - 1.0) = Dbl.fin false 3953169009908411 (-1065) := by
  decide!

/-- C9, amended. Central-stencil weight under equal indicators in exact arithmetic (real
scalars, `pow` the real power): when the `n ≥ 1` stencils all have the same smoothness
indicator `s` with `10e-6 + s > 0` and `dm > 0`, for every exponent `p` the weights are
`dm/(dm + n - 1)` for the central stencil and `1/(dm + n - 1)` for every sectorial one,
independent of `s` and `p`; with the default `dm = 1000` of the constructor the central
weight is `1000/(999 + n)`, strictly below `1` when `n ≥ 2`. -/
theorem weight_of_equal_indicators_exact (self : WENOCoeff ℝ) (cellI : ℕ)
    (coeffsI : List (List ℝ)) (s : ℝ) (hn : 1 ≤ coeffsI.length) (hdm : 0 < self.dm_)
    (hs : ∀ i, i < coeffsI.length → smoothInd (self.B_ cellI) (coeffsI.getD i []) = s)
    (hpos : 0 < 10e-6 + s) :
    weight Real.rpow self cellI coeffsI 0 = self.dm_ / (self.dm_ + (coeffsI.length : ℝ) - 1) ∧
    (∀ i, 1 ≤ i → i < coeffsI.length →
      weight Real.rpow self cellI coeffsI i = 1 / (self.dm_ + (coeffsI.length : ℝ) - 1)) ∧
    (self.dm_ = dmOrDefault none →
      weight Real.rpow self cellI coeffsI 0 = 1000 / (999 + (coeffsI.length : ℝ)) ∧
      (2 ≤ coeffsI.length → weight Real.rpow self cellI coeffsI 0 < 1)) :=
  weight_of_equal_indicators_of_pow_pos Real.rpow self cellI coeffsI s hn hdm hs hpos
    (fun _ hx => Real.rpow_pos_of_pos hx _)

/-- Witness for `weight_of_equal_indicators_exact`: two stencils over the zero oscillation
matrix, so that both indicators are `0`, with `p = 5/2`. -/
theorem weight_of_equal_indicators_exact_witness :
    weight Real.rpow ⟨5 / 2, 1000, fun _ _ _ => 0⟩ 0 [[1, 2], [3, 4]] 0
      = 1000 / (1000 + (([[1, 2], [3, 4]] : List (List ℝ)).length : ℝ) - 1) :=
  (weight_of_equal_indicators_exact ⟨5 / 2, 1000, fun _ _ _ => 0⟩ 0 [[1, 2], [3, 4]] 0
    (by decide) (by norm_num)
    (by
      intro i hi
      have hi2 : i < 2 := hi
      interval_cases i <;> norm_num [smoothInd_eq, Finset.sum_range_succ])
    (by norm_num)).1

/-- C11 as stated fails. In exact arithmetic, with `p = 1`, `dm = -3`, the identity
oscillation matrix and the stencils `[0]`, `[2]`, `[1]`, the sectorial indicators are
`4 > 1 ≥ 0`, `gammaSum` is negative and the stencil with the larger indicator has the
larger weight. On doubles, with `p = 1`, `dm = 1000`, the identity matrix and the stencils
`[0]`, `[1e-15]`, `[0]`, the indicators are `0`, about `1e-30` and `0`, the sum
`10e-6 + 1e-30` rounds to `10e-6`, and stencils `1` and `2` have the same weight although
`s_1 > s_2 ≥ 0`; with `dm = 1` and the stencils `[0]`, `[1e-15]` the sectorial and the
central weight are both `1/2` although `s_1 > s_0 ≥ 0` and `dm ≥ 1`. -/
theorem weight_order_not_strict :
    (smoothInd ((⟨1, -3, fun _ P Q => if P = Q then 1 else 0⟩ : WENOCoeff ℚ).B_ 0) [2] = 4 ∧
      smoothInd ((⟨1, -3, fun _ P Q => if P = Q then 1 else 0⟩ : WENOCoeff ℚ).B_ 0) [1] = 1 ∧
      gammaSum powQ ⟨1, -3, fun _ P Q => if P = Q then 1 else 0⟩ 0 [[0], [2], [1]] < 0 ∧
      ¬ (weight powQ ⟨1, -3, fun _ P Q => if P = Q then 1 else 0⟩ 0 [[0], [2], [1]] 1
        < weight powQ ⟨1, -3, fun _ P Q => if P = Q then 1 else 0⟩ 0 [[0], [2], [1]] 2)) ∧
    (smoothInd (identityB 0) [1e-15] = Dbl.fin false 178405961588245 (-147) ∧
      smoothInd (identityB 0) [0.0] < smoothInd (identityB 0) [1e-15] ∧
      (10e-6 : Dbl) + smoothInd (identityB 0) [1e-15] = 10e-6 ∧
      weight Dbl.pow ⟨1.0, 1000.0, identityB⟩ 0 [[0.0], [1e-15], [0.0]] 1
        = weight Dbl.pow ⟨1.0, 1000.0, identityB⟩ 0 [[0.0], [1e-15], [0.0]] 2 ∧
      ¬ (weight Dbl.pow ⟨1.0, 1000.0, identityB⟩ 0 [[0.0], [1e-15], [0.0]] 1
        < weight Dbl.pow ⟨1.0, 1000.0, identityB⟩ 0 [[0.0], [1e-15], [0.0]] 2) ∧
      weight Dbl.pow ⟨1.0, 1.0, identityB⟩ 0 [[0.0], [1e-15]] 1 = Dbl.fin false 1 (-1) ∧
      weight Dbl.pow ⟨1.0, 1.0, identityB⟩ 0 [[0.0], [1e-15]] 0 = Dbl.fin false 1 (-1)) := by
  refine ⟨⟨by norm_num [smoothInd_eq], by norm_num [smoothInd_eq], ?_, ?_⟩, by decide!⟩
  · rw [gammaSum_eq]
    norm_num [stencilGamma, gammaOf, smoothInd_eq, Finset.sum_range_succ, powQ]
  · rw [weight, weight, gammaSum_eq]
    norm_num [stencilGamma, gammaOf, smoothInd_eq, Finset.sum_range_succ, powQ]

/-- C11, amended. Oscillation suppression in exact arithmetic (real scalars, `pow` the
real power): for every cell with `dm > 0` and `10e-6 + s_k > 0` for every stencil `k`, and
every exponent `p > 0`, a stencil whose smoothness indicator is strictly larger receives
a strictly smaller weight: for sectorial `i, j ≥ 1` with `s_i > s_j ≥ 0`,
`weight_i < weight_j`; for sectorial `i ≥ 1` with `s_i > s_0 ≥ 0` and `dm ≥ 1`,
`weight_i < weight_0`. -/
theorem weight_strict_anti_exact (self : WENOCoeff ℝ) (cellI : ℕ) (coeffsI : List (List ℝ))
    (hdm : 0 < self.dm_)
    (hs : ∀ k, k < coeffsI.length →
      0 < 10e-6 + smoothInd (self.B_ cellI) (coeffsI.getD k []))
    (hp : 0 < self.p_) :
    (∀ i j, 1 ≤ i → 1 ≤ j → i < coeffsI.length → j < coeffsI.length →
      0 ≤ smoothInd (self.B_ cellI) (coeffsI.getD j []) →
      smoothInd (self.B_ cellI) (coeffsI.getD j [])
        < smoothInd (self.B_ cellI) (coeffsI.getD i []) →
      weight Real.rpow self cellI coeffsI i < weight Real.rpow self cellI coeffsI j) ∧
    (∀ i, 1 ≤ i → i < coeffsI.length →
      0 ≤ smoothInd (self.B_ cellI) (coeffsI.getD 0 []) →
      smoothInd (self.B_ cellI) (coeffsI.getD 0 [])
        < smoothInd (self.B_ cellI) (coeffsI.getD i []) →
      1 ≤ self.dm_ →
      weight Real.rpow self cellI coeffsI i < weight Real.rpow self cellI coeffsI 0) :=
  weight_strict_anti_of_pow_mono Real.rpow self cellI coeffsI hdm hs
    (fun _ hx => Real.rpow_pos_of_pos hx _) hp
    (fun hp0 _ _ hx hxy => Real.rpow_lt_rpow (le_of_lt hx) hxy hp0)

/-- Witness for `weight_strict_anti_exact`: `p = 5/2`, `dm = 1000`, the identity
oscillation matrix, and the stencils `[0]`, `[2]`, `[1]` with indicators `0`, `4`, `1`. -/
theorem weight_strict_anti_exact_witness :
    weight Real.rpow ⟨5 / 2, 1000, fun _ P Q => if P = Q then 1 else 0⟩ 0 [[0], [2], [1]] 1
      < weight Real.rpow ⟨5 / 2, 1000, fun _ P Q => if P = Q then 1 else 0⟩ 0
          [[0], [2], [1]] 2 :=
  (weight_strict_anti_exact ⟨5 / 2, 1000, fun _ P Q => if P = Q then 1 else 0⟩ 0
    [[0], [2], [1]] (by norm_num)
    (by
      intro k hk
      have hk2 : k < 3 := hk
      interval_cases k <;> norm_num [smoothInd_eq, Finset.sum_range_succ])
    (by norm_num)).1 1 2 (by decide) (by decide)
    (by decide) (by decide) (by norm_num [smoothInd_eq]) (by norm_num [smoothInd_eq])

/-- C16 as stated fails on doubles. With `p = 1`, `dm = 1000`, the zero oscillation matrix
and three stencils that all carry `[2.7]`, every hypothesis holds (`dm > 0`, every
regularised indicator is `10e-6 > 0`, zero buffer), the smallest and the largest
coefficient are both `2.7`, and the blended coefficient is one unit in the last place
above `2.7`. -/
theorem calcWeight_not_convex_double :
    calcWeight Dbl.pow ⟨1.0, 1000.0, zeroB⟩ [0.0] 0 [[2.7], [2.7], [2.7]]
      = [Dbl.fin false 6079859496950171 (-51)] ∧
    (2.7 : Dbl) = Dbl.fin false 3039929748475085 (-50) ∧
    (2.7 : Dbl) < (calcWeight Dbl.pow ⟨1.0, 1000.0, zeroB⟩ [0.0] 0
      [[2.7], [2.7], [2.7]]).getD 0 0 := by
  decide!

/-- C16, amended. The blend is a convex combination in exact arithmetic (real scalars,
`pow` the real power): for `n ≥ 1` stencils of one common length, `dm > 0`,
`10e-6 + s_i > 0` for every `i` and a zero buffer, every blended coefficient returned by
scalar `calcWeight` lies between the smallest and the largest of the stencils'
coefficients at that index. -/
theorem calcWeight_convex_exact (self : WENOCoeff ℝ) (cellI : ℕ) (coeffsI : List (List ℝ))
    (k : ℕ) (hn : 1 ≤ coeffsI.length) (hk : ∀ c ∈ coeffsI, c.length = k)
    (hdm : 0 < self.dm_)
    (hs : ∀ i, i < coeffsI.length →
      0 < 10e-6 + smoothInd (self.B_ cellI) (coeffsI.getD i [])) :
    ∀ j, j < k →
      (Finset.range coeffsI.length).inf' (Finset.nonempty_range_iff.mpr (Nat.ne_of_gt hn))
          (fun i => (coeffsI.getD i []).getD j 0)
        ≤ (calcWeight Real.rpow self (List.replicate k 0) cellI coeffsI).getD j 0
      ∧ (calcWeight Real.rpow self (List.replicate k 0) cellI coeffsI).getD j 0
        ≤ (Finset.range coeffsI.length).sup' (Finset.nonempty_range_iff.mpr (Nat.ne_of_gt hn))
          (fun i => (coeffsI.getD i []).getD j 0) :=
  calcWeight_convex_of_pow_pos Real.rpow self cellI coeffsI k hn hk hdm hs
    (fun _ hx => Real.rpow_pos_of_pos hx _)

/-- Witness for `calcWeight_convex_exact`: two stencils of length two; the first blended
coefficient is at most the larger of `1` and `3`. -/
theorem calcWeight_convex_exact_witness :
    (calcWeight Real.rpow ⟨4, 1000, fun _ P Q => if P = Q then 1 else 0⟩ (List.replicate 2 0) 0
        [[1, 2], [3, 4]]).getD 0 0
      ≤ (Finset.range ([[1, 2], [3, 4]] : List (List ℝ)).length).sup'
          (Finset.nonempty_range_iff.mpr (Nat.ne_of_gt (by decide)))
          (fun i => (([[1, 2], [3, 4]] : List (List ℝ)).getD i []).getD 0 0) :=
  ((calcWeight_convex_exact ⟨4, 1000, fun _ P Q => if P = Q then 1 else 0⟩ 0 [[1, 2], [3, 4]] 2
    (by decide) (by simp) (by norm_num)
    (by
      intro i hi
      have hi2 : i < 2 := hi
      interval_cases i <;> norm_num [smoothInd_eq, Finset.sum_range_succ])) 0 (by decide)).2

/-- C17 as stated fails on doubles. With `p = 1`, `dm = 1e20`, the zero oscillation matrix
and the single stencil `[0.3]`, `gammaSum` is about `1e25 > 0`; the appended empty stencil
has `gamma = 1/10e-6`, about `1e5`, which the addition to `gammaSum` rounds away, so
`gammaSum` and the blended coefficient are left unchanged. -/
theorem empty_stencil_absorbed_double :
    (0.0 : Dbl) < gammaSum Dbl.pow ⟨1.0, 1e20, zeroB⟩ 0 [[0.3]] ∧
    stencilGamma Dbl.pow ⟨1.0, 1e20, zeroB⟩ 0 ([[0.3]] ++ [[]]) 1
      = Dbl.fin false 6871947673599999 (-36) ∧
    gammaSum Dbl.pow ⟨1.0, 1e20, zeroB⟩ 0 ([[0.3]] ++ [[]])
      = gammaSum Dbl.pow ⟨1.0, 1e20, zeroB⟩ 0 [[0.3]] ∧
    calcWeight Dbl.pow ⟨1.0, 1e20, zeroB⟩ [0.0] 0 ([[0.3]] ++ [[]])
      = calcWeight Dbl.pow ⟨1.0, 1e20, zeroB⟩ [0.0] 0 [[0.3]] ∧
    calcWeight Dbl.pow ⟨1.0, 1e20, zeroB⟩ [0.0] 0 [[0.3]]
      = [Dbl.fin false 5404319552844595 (-54)] := by
  decide!

/-- C17, amended. In exact arithmetic (real scalars, `pow` the real power) every entry of
the stencil list contributes to the denominator: a stencil whose coefficient vector is
empty or all zero has indicator `0` and adds `1/(10e-6)^p` to `gammaSum` at an index `≥ 1`
(`dm/(10e-6)^p` at index `0`), so appending such a stencil to a list with positive
`gammaSum` `G` multiplies every blended coefficient by `G / (G + (10e-6)^(-p))`, a factor
strictly between `0` and `1`, rather than leaving the blend unchanged. -/
theorem empty_stencil_contributes_exact (self : WENOCoeff ℝ) (cw : List ℝ) (cellI : ℕ)
    (coeffsI : List (List ℝ)) (z : List ℝ) (hz : ∀ v ∈ z, v = 0)
    (hG : 0 < gammaSum Real.rpow self cellI coeffsI) :
    smoothInd (self.B_ cellI) z = 0 ∧
    (∀ i, (∀ v ∈ coeffsI.getD i [], v = 0) →
      stencilGamma Real.rpow self cellI coeffsI i
        = if i = 0 then self.dm_ / Real.rpow 10e-6 self.p_
          else 1 / Real.rpow 10e-6 self.p_) ∧
    gammaSum Real.rpow self cellI [z] = self.dm_ / Real.rpow 10e-6 self.p_ ∧
    gammaSum Real.rpow self cellI (coeffsI ++ [z])
      = gammaSum Real.rpow self cellI coeffsI + Real.rpow 10e-6 (-self.p_) ∧
    (∀ k, k < cw.length →
      (calcWeight Real.rpow self cw cellI (coeffsI ++ [z])).getD k 0
        = (calcWeight Real.rpow self cw cellI coeffsI).getD k 0
          * (gammaSum Real.rpow self cellI coeffsI
              / (gammaSum Real.rpow self cellI coeffsI + Real.rpow 10e-6 (-self.p_)))) ∧
    0 < gammaSum Real.rpow self cellI coeffsI
          / (gammaSum Real.rpow self cellI coeffsI + Real.rpow 10e-6 (-self.p_)) ∧
    gammaSum Real.rpow self cellI coeffsI
          / (gammaSum Real.rpow self cellI coeffsI + Real.rpow 10e-6 (-self.p_)) < 1 := by
  have hneg : Real.rpow 10e-6 (-self.p_) = 1 / Real.rpow 10e-6 self.p_ := by
    rw [one_div]
    exact Real.rpow_neg (by norm_num) self.p_
  have hpos : 0 < Real.rpow 10e-6 self.p_ := Real.rpow_pos_of_pos (by norm_num) _
  obtain ⟨h1, h2, h3, h4, h5, h6⟩ :=
    empty_stencil_contributes_of_field Real.rpow self cw cellI coeffsI z hz hG
  rw [hneg]
  exact ⟨h1, h2, h3, h4, h5, (h6 hpos).1, (h6 hpos).2⟩

/-- Witness for `empty_stencil_contributes_exact`: an empty stencil appended to two
stencils over the zero oscillation matrix, with `p = 2`. -/
theorem empty_stencil_contributes_exact_witness :
    gammaSum Real.rpow ⟨2, 1000, fun _ _ _ => 0⟩ 0 ([[1, 2], [3, 4]] ++ [[]])
      = gammaSum Real.rpow ⟨2, 1000, fun _ _ _ => 0⟩ 0 [[1, 2], [3, 4]]
        + Real.rpow 10e-6 (-(⟨2, 1000, fun _ _ _ => 0⟩ : WENOCoeff ℝ).p_) :=
  (empty_stencil_contributes_exact ⟨2, 1000, fun _ _ _ => 0⟩ [0, 0] 0 [[1, 2], [3, 4]] []
    (by simp)
    (gammaSum_pos Real.rpow ⟨2, 1000, fun _ _ _ => 0⟩ 0 [[1, 2], [3, 4]] (by decide)
      (fun i _ => stencilGamma_pos Real.rpow ⟨2, 1000, fun _ _ _ => 0⟩ 0 [[1, 2], [3, 4]] i
        (by norm_num) (Real.rpow_pos_of_pos
          (smoothInd_nonneg_of_zero_matrix (([[1, 2], [3, 4]] : List (List ℝ)).getD i []))
          _)))).2.2.2.1

end exact

end WENO
